import Mathlib

/-!
Verification of the doppel core: the prefix-based clusterer (`Matcher.Group`,
`findRoot`, `commonPrefix`) and the suffix classifier (`filterFilesBySuffix`,
`isLikelyDatePattern`) from the Go sources, shallowly embedded in Lean.

Strings are modelled as `List Char` (the inputs of interest are ASCII, where
Go byte indexing and character indexing coincide).
-/

set_option maxHeartbeats 1000000

/-- A file path / file name, modelled as a list of characters. -/
abbrev Str := List Char

/-- Convert a Lean string literal to the `Str` model. -/
def strL (s : String) : Str := s.data

/-- Go `commonPrefix(a, b string) string` (matcher source): character-by-character
comparison from index 0, returning the longest common prefix. -/
def commonPrefix : Str → Str → Str
  | a :: as, b :: bs => if a = b then a :: commonPrefix as bs else []
  | _, _ => []

/-- Go `filepath.Base`: final element of the path; "." for the empty path, "/"
when the path is all separators; trailing separators removed first. -/
def filepathBase (p : Str) : Str :=
  if p = [] then ['.']
  else
    let q := (p.reverse.dropWhile (fun c => c == '/')).reverse
    if q = [] then ['/']
    else (q.reverse.takeWhile (fun c => c != '/')).reverse

/-- Go `filepath.Ext`: the suffix beginning at the final dot in the final
path element; empty if there is no dot. -/
def filepathExt (name : Str) : Str :=
  let seg := name.reverse.takeWhile (fun c => c != '/')
  let pre := seg.takeWhile (fun c => c != '.')
  if pre.length = seg.length then [] else (seg.take (pre.length + 1)).reverse

/-- The stem computed in `filterFilesBySuffix`:
`filename := filepath.Base(file); ext := filepath.Ext(filename);
baseFilename := filename[:len(filename)-len(ext)]`. -/
def stemOf (file : Str) : Str :=
  let filename := filepathBase file
  let ext := filepathExt filename
  filename.take (filename.length - ext.length)

/-- Abstract syntax of the (anchor-free) core of a compiled Go regular
expression, sufficient for the suffix patterns this program works with.
The boundary layer of `main.go` appends a `$` end anchor to the user's
pattern; that anchor is handled by `findStringIndexE` below, so a `Regex`
value stands for the pattern text before the appended anchor. -/
inductive Regex where
  | emptyset : Regex
  | epsilon : Regex
  | char : Char → Regex
  | digit : Regex
  | alt : Regex → Regex → Regex
  | cat : Regex → Regex → Regex
  | star : Regex → Regex
deriving DecidableEq

/-- Whether the regular expression matches the empty string. -/
def Regex.nullable : Regex → Bool
  | .emptyset => false
  | .epsilon => true
  | .char _ => false
  | .digit => false
  | .alt r1 r2 => r1.nullable || r2.nullable
  | .cat r1 r2 => r1.nullable && r2.nullable
  | .star _ => true

/-- Brzozowski derivative of a regular expression by one character. -/
def Regex.deriv : Regex → Char → Regex
  | .emptyset, _ => .emptyset
  | .epsilon, _ => .emptyset
  | .char c, a => if a = c then .epsilon else .emptyset
  | .digit, a => if a.isDigit then .epsilon else .emptyset
  | .alt r1 r2, a => .alt (r1.deriv a) (r2.deriv a)
  | .cat r1 r2, a =>
      if r1.nullable then .alt (.cat (r1.deriv a) r2) (r2.deriv a)
      else .cat (r1.deriv a) r2
  | .star r, a => .cat (r.deriv a) (.star r)

/-- Whether the regular expression matches the whole of `s`. -/
def Regex.accepts : Regex → Str → Bool
  | r, [] => r.nullable
  | r, c :: s => (r.deriv c).accepts s

/-- Model of Go `pattern.FindStringIndex(s)` for a pattern of the form
`core$` (an explicit end anchor closes every compiled suffix pattern, see
`main.go`).  Every match of `core$` in `s` is a pair `[i, len(s))` such
that `core` matches `s[i:]` in full, and `FindStringIndex` returns the
leftmost one, i.e. the least such `i`. -/
def findStringIndexE (r : Regex) (s : Str) : Option (Nat × Nat) :=
  ((List.range (s.length + 1)).find? (fun i => r.accepts (s.drop i))).map
    (fun i => (i, s.length))

/-- The Step-1 acceptance check of `filterFilesBySuffix`:
`match := pattern.FindStringIndex(baseFilename); match != nil && match[1] == len(baseFilename)`. -/
def step1Check (r : Regex) (baseFilename : Str) : Bool :=
  match findStringIndexE r baseFilename with
  | none => false
  | some m => m.2 == baseFilename.length

/-- Model of `pattern.ReplaceAllString(s, "")` for the end-anchored pattern
`core$`: all matches of `core$` in `s` end at `len(s)`, so at most one
non-empty match is removed (a possible further empty match at the end
contributes nothing), leaving the prefix before the leftmost match. -/
def replaceAllEnd (r : Regex) (s : Str) : Str :=
  match findStringIndexE r s with
  | none => s
  | some m => s.take m.1

/-- The regular expression `-\d+` used inside `isLikelyDatePattern`. -/
def hyphenDigitsPlus : Regex := .cat (.char '-') (.cat .digit (.star .digit))

/-- Model of `trailingHyphenDigits.MatchString(s)` with `trailingHyphenDigits = -\d+$`:
true iff some match of `-\d+` ends exactly at the end of `s`. -/
def trailingHyphenDigitsMatch (s : Str) : Bool :=
  (findStringIndexE hyphenDigitsPlus s).isSome

/-- Model of `hyphenDigitPattern.FindAllString(s, -1)` with
`hyphenDigitPattern = -\d+`: the non-overlapping matches found scanning left
to right, each being a hyphen followed by the maximal run of digits after it
(the `+` is greedy and nothing follows it in the pattern). -/
def findHyphenDigitRunsF : Nat → Str → List Str
  | 0, _ => []
  | _ + 1, [] => []
  | fuel + 1, c :: rest =>
    if c = '-' then
      let ds := rest.takeWhile Char.isDigit
      if ds.isEmpty then findHyphenDigitRunsF fuel rest
      else (c :: ds) :: findHyphenDigitRunsF fuel (rest.drop ds.length)
    else findHyphenDigitRunsF fuel rest

/-- The scan itself, with fuel equal to the length of the string: every
recursive call of `findHyphenDigitRunsF` consumes at least one character,
so this fuel is never exhausted. -/
def findHyphenDigitRuns (s : Str) : List Str := findHyphenDigitRunsF s.length s

/-- Go `isLikelyDatePattern(baseFilename, baseName string) bool` (`main.go`):
the three date heuristics, evaluated in order with short-circuit. -/
def isLikelyDatePattern (baseFilename baseName : Str) : Bool :=
  if trailingHyphenDigitsMatch baseName then true
  else
    let ms := findHyphenDigitRuns baseFilename
    if 3 ≤ ms.length then true
    else if ms.any (fun m => 5 ≤ m.length) then true
    else false

/-- The per-match record built in Step 1 of `filterFilesBySuffix`
(the Go `fileMatch` struct). -/
structure FileMatch where
  file : Str
  baseName : Str
deriving DecidableEq

/-- One iteration of the Step-1 loop of `filterFilesBySuffix`: anchored
match test, residual extraction via `ReplaceAllString`, then the date
heuristics; `none` when the file is not accepted into the matching set. -/
def matchOfFile (r : Regex) (file : Str) : Option FileMatch :=
  let baseFilename := stemOf file
  if step1Check r baseFilename then
    let baseName := replaceAllEnd r baseFilename
    if isLikelyDatePattern baseFilename baseName then none
    else some ⟨file, baseName⟩
  else none

/-- Go `filterFilesBySuffix(files []string, pattern *regexp.Regexp) []string`:
Step 1 collects the matching files and their base names, Step 2 emits the
matching files followed by the base files, deduplicating via the `included`
set (membership in the accumulated result). -/
def filterFilesBySuffix (files : List Str) (pattern : Option Regex) : List Str :=
  match pattern with
  | none => files
  | some r =>
    let matchingFiles := files.filterMap (matchOfFile r)
    let baseNames := matchingFiles.map FileMatch.baseName
    let result1 := matchingFiles.foldl
      (fun acc fm => if fm.file ∈ acc then acc else acc ++ [fm.file]) []
    files.foldl
      (fun acc file =>
        if file ∈ acc then acc
        else if stemOf file ∈ baseNames then acc ++ [file]
        else acc) result1

/-- The concrete pattern `-\d{1,2}` ("hyphen plus 1-2 digits") used in the
spec examples; `\d{1,2}` is a digit followed by an optional digit. -/
def hyphenDigits12 : Regex := .cat (.char '-') (.cat .digit (.alt .epsilon .digit))

/-- Pointwise update of a parent map: the slice write `groupID[a] = v`. -/
def updF (f : Nat → Nat) (a v : Nat) : Nat → Nat :=
  fun x => if x = a then v else f x

/-- Go `findRoot(groupID []int, x int) int` (matcher source), with the path
compression `groupID[x] = findRoot(groupID, groupID[x])` made explicit by
returning the updated parent map.  The Go recursion has no structural
measure (it terminates because the parent map stays acyclic, which is
proved below), so the embedding carries explicit fuel; `Matcher.Group`
always calls it with fuel `n`, which the acyclicity invariant proves
sufficient (see the fuel-stability theorem for claim C10). -/
def findRootF : Nat → (Nat → Nat) → Nat → Nat × (Nat → Nat)
  | 0, f, x => (x, f)
  | fuel + 1, f, x =>
    if f x = x then (x, f)
    else
      let p := findRootF fuel f (f x)
      (p.1, updF p.2 x p.1)

/-- The body of the double loop of `Matcher.Group` for one pair `(i, j)`:
if the base filenames share a long enough prefix, find both roots (with
path compression) and redirect `rootJ` to `rootI` when they differ. -/
def mergeStep (names : Nat → Str) (minPrefixLength n : Nat)
    (f : Nat → Nat) (ij : Nat × Nat) : Nat → Nat :=
  if minPrefixLength ≤ (commonPrefix (names ij.1) (names ij.2)).length then
    let p1 := findRootF n f ij.1
    let p2 := findRootF n p1.2 ij.2
    if p1.1 ≠ p2.1 then updF p2.2 p2.1 p1.1 else p2.2
  else f

/-- The ordered list of index pairs `(i, j)` with `i < j < n` visited by the
double loop of `Matcher.Group`. -/
def pairsList (n : Nat) : List (Nat × Nat) :=
  (List.range n).flatMap
    (fun i => ((List.range n).filter (fun j => i < j)).map (fun j => (i, j)))

/-- The parent map after the whole pair loop of `Matcher.Group`, starting
from `groupID[i] = i` (the identity). -/
def runPairs (names : Nat → Str) (minPrefixLength n : Nat) : Nat → Nat :=
  (pairsList n).foldl (fun f ij => mergeStep names minPrefixLength n f ij) id

/-- The root-collection loop of `Matcher.Group`: `findRoot(groupID, i)` for
each index in order, threading the path-compression updates. -/
def collectRoots (n : Nat) (f : Nat → Nat) : List Nat × (Nat → Nat) :=
  (List.range n).foldl
    (fun acc i =>
      let p := findRootF n acc.2 i
      (acc.1 ++ [p.1], p.2)) ([], f)

/-- The `filename` extraction of `Matcher.Group`:
`fileInfos[i].filename = filepath.Base(files[i])`. -/
def groupNames (files : List Str) : Nat → Str :=
  fun i => filepathBase (files.getD i [])

/-- Go `Matcher` struct. -/
structure Matcher where
  minPrefixLength : Nat

/-- Go `NewMatcher`. -/
def NewMatcher (minPrefixLength : Nat) : Matcher := ⟨minPrefixLength⟩

/-- Go `(m *Matcher) Group(files []string) [][]string` (matcher source):
fewer than two files yields nil; otherwise base filenames are extracted,
the union-find pair loop runs, files are collected into buckets keyed by
their resolved root, and only buckets of two or more files are returned.
Go iterates the bucket map in unspecified order; the embedding iterates
roots in order of first occurrence (one admissible linearization — the
properties claimed of the result are order-insensitive).  Within a bucket,
files appear in input order, exactly as in the Go append loop. -/
def Matcher.Group (m : Matcher) (files : List Str) : List (List Str) :=
  if files.length < 2 then []
  else
    let n := files.length
    let names := groupNames files
    let fF := runPairs names m.minPrefixLength n
    let roots := (collectRoots n fF).1
    let reps := roots.foldl (fun acc r => if r ∈ acc then acc else acc ++ [r]) []
    let buckets := reps.map
      (fun r => ((List.range n).filter (fun i => roots.getD i 0 == r)).map
        (fun i => files.getD i []))
    buckets.filter (fun g => 2 ≤ g.length)

/-- The chain from `x` under parent map `f` reaches a fixed point. -/
def ufReaches (f : Nat → Nat) (x : Nat) : Prop :=
  ∃ k, f (f^[k] x) = f^[k] x

/-- The union-find invariant of the parent maps arising in `Matcher.Group`
over `n` files: indices at or beyond `n` are untouched, parents of live
indices stay below `n`, and every chain reaches a fixed point (the parent
graph is an acyclic forest whose roots are the self-loops). -/
def UFInv (n : Nat) (f : Nat → Nat) : Prop :=
  (∀ x, n ≤ x → f x = x) ∧ (∀ x, x < n → f x < n) ∧ (∀ x, ufReaches f x)

/-- The resolved root of `x`: under `UFInv n f`, iterating the parent map
`n` times from any index lands on its fixed point. -/
def rootOfN (n : Nat) (f : Nat → Nat) (x : Nat) : Nat := f^[n] x

/-- The pair relation driving the union-find merges of `Matcher.Group`:
two distinct live indices whose base filenames share a common prefix of at
least the configured minimum length. -/
def RelP (names : Nat → Str) (minLen n : Nat) (i j : Nat) : Prop :=
  i ≠ j ∧ i < n ∧ j < n ∧ minLen ≤ (commonPrefix (names i) (names j)).length

/-- Derived view of `Matcher.Group`: the resolved root of index `i` after
the whole pair loop. -/
def groupRoot (files : List Str) (minLen : Nat) (i : Nat) : Nat :=
  rootOfN files.length (runPairs (groupNames files) minLen files.length) i

/-- Derived view of `Matcher.Group`: the list of distinct roots in order of
first occurrence (the iteration order the embedding fixes for Go's map). -/
def groupReps (files : List Str) (minLen : Nat) : List Nat :=
  ((List.range files.length).map (groupRoot files minLen)).foldl
    (fun acc r => if r ∈ acc then acc else acc ++ [r]) []

/-- Derived view of `Matcher.Group`: the bucket of files whose index
resolves to root `r`. -/
def groupBucket (files : List Str) (minLen : Nat) (r : Nat) : List Str :=
  ((List.range files.length).filter
    (fun i => ((List.range files.length).map (groupRoot files minLen)).getD i 0 == r)).map
    (fun i => files.getD i [])

/-- The output of a clusterer run, flattened, concatenated with itself:
the input of the idempotence re-run. -/
def doubledOutput (m : Matcher) (files : List Str) : List Str :=
  (m.Group files).flatten ++ (m.Group files).flatten

/-! ### Generic lemmas about the deduplicating folds -/

theorem foldl_addUniq_mem {α : Type} [BEq α] [LawfulBEq α] (l acc : List α) (y : α) :
    (y ∈ l.foldl (fun a x => if x ∈ a then a else a ++ [x]) acc) ↔ y ∈ acc ∨ y ∈ l := by
  induction l generalizing acc with
  | nil => simp
  | cons x t ih =>
    simp only [List.foldl_cons]
    by_cases hx : x ∈ acc
    · rw [if_pos hx, ih]
      constructor
      · rintro (h | h)
        · exact Or.inl h
        · exact Or.inr (List.mem_cons_of_mem _ h)
      · rintro (h | h)
        · exact Or.inl h
        · rcases List.mem_cons.mp h with rfl | h
          · exact Or.inl hx
          · exact Or.inr h
    · rw [if_neg hx, ih]
      simp only [List.mem_append, List.mem_singleton, List.mem_cons]
      tauto

theorem foldl_addUniq_nodup {α : Type} [BEq α] [LawfulBEq α] (l acc : List α) (h : acc.Nodup) :
    (l.foldl (fun a x => if x ∈ a then a else a ++ [x]) acc).Nodup := by
  induction l generalizing acc with
  | nil => simpa
  | cons x t ih =>
    simp only [List.foldl_cons]
    by_cases hx : x ∈ acc
    · rw [if_pos hx]; exact ih _ h
    · rw [if_neg hx]
      refine ih _ ?_
      rw [List.nodup_append]
      exact ⟨h, List.nodup_singleton x, by
        intro a ha hax
        rw [List.mem_singleton] at hax
        exact hx (hax ▸ ha)⟩

theorem foldl_guardAdd_mem {α : Type} [BEq α] [LawfulBEq α] (p : α → Prop) [DecidablePred p]
    (l acc : List α) (y : α) :
    (y ∈ l.foldl (fun a x => if x ∈ a then a else if p x then a ++ [x] else a) acc) ↔
      y ∈ acc ∨ (y ∈ l ∧ p y) := by
  induction l generalizing acc with
  | nil => simp
  | cons x t ih =>
    simp only [List.foldl_cons]
    by_cases hx : x ∈ acc
    · rw [if_pos hx, ih]
      constructor
      · rintro (h | ⟨h1, h2⟩)
        · exact Or.inl h
        · exact Or.inr ⟨List.mem_cons_of_mem _ h1, h2⟩
      · rintro (h | ⟨h1, h2⟩)
        · exact Or.inl h
        · rcases List.mem_cons.mp h1 with rfl | h1
          · exact Or.inl hx
          · exact Or.inr ⟨h1, h2⟩
    · rw [if_neg hx]
      by_cases hp : p x
      · rw [if_pos hp, ih]
        simp only [List.mem_append, List.mem_singleton, List.mem_cons, List.not_mem_nil,
          or_false]
        constructor
        · rintro ((h | rfl) | ⟨h1, h2⟩)
          · exact Or.inl h
          · exact Or.inr ⟨Or.inl rfl, hp⟩
          · exact Or.inr ⟨Or.inr h1, h2⟩
        · rintro (h | ⟨rfl | h1, h2⟩)
          · exact Or.inl (Or.inl h)
          · exact Or.inl (Or.inr rfl)
          · exact Or.inr ⟨h1, h2⟩
      · rw [if_neg hp, ih]
        simp only [List.mem_cons]
        constructor
        · rintro (h | ⟨h1, h2⟩)
          · exact Or.inl h
          · exact Or.inr ⟨Or.inr h1, h2⟩
        · rintro (h | ⟨rfl | h1, h2⟩)
          · exact Or.inl h
          · exact absurd h2 hp
          · exact Or.inr ⟨h1, h2⟩

theorem foldl_guardAdd_nodup {α : Type} [BEq α] [LawfulBEq α] (p : α → Prop) [DecidablePred p]
    (l acc : List α) (h : acc.Nodup) :
    (l.foldl (fun a x => if x ∈ a then a else if p x then a ++ [x] else a) acc).Nodup := by
  induction l generalizing acc with
  | nil => simpa
  | cons x t ih =>
    simp only [List.foldl_cons]
    by_cases hx : x ∈ acc
    · rw [if_pos hx]; exact ih _ h
    · rw [if_neg hx]
      by_cases hp : p x
      · rw [if_pos hp]
        refine ih _ ?_
        rw [List.nodup_append]
        exact ⟨h, List.nodup_singleton x, by
          intro a ha hax
          rw [List.mem_singleton] at hax
          exact hx (hax ▸ ha)⟩
      · rw [if_neg hp]; exact ih _ h

/-! ### The suffix classifier: anchored matching and result membership -/

theorem foldl_addUniq_mem_map {α β : Type} [BEq β] [LawfulBEq β] (f : α → β)
    (l : List α) (acc : List β) (y : β) :
    (y ∈ l.foldl (fun a x => if f x ∈ a then a else a ++ [f x]) acc) ↔
      y ∈ acc ∨ y ∈ l.map f := by
  induction l generalizing acc with
  | nil => simp
  | cons x t ih =>
    simp only [List.foldl_cons, List.map_cons, List.mem_cons]
    by_cases hx : f x ∈ acc
    · rw [if_pos hx, ih]
      constructor
      · rintro (h | h)
        · exact Or.inl h
        · exact Or.inr (Or.inr h)
      · rintro (h | rfl | h)
        · exact Or.inl h
        · exact Or.inl hx
        · exact Or.inr h
    · rw [if_neg hx, ih]
      simp only [List.mem_append, List.mem_singleton]
      tauto

theorem step1Check_eq (r : Regex) (s : Str) :
    step1Check r s = (findStringIndexE r s).isSome := by
  unfold step1Check findStringIndexE
  cases hf : (List.range (s.length + 1)).find? (fun i => r.accepts (s.drop i)) with
  | none => rfl
  | some i => simp

theorem findStringIndexE_isSome_iff (r : Regex) (s : Str) :
    (findStringIndexE r s).isSome = true ↔ ∃ t, t <:+ s ∧ r.accepts t = true := by
  unfold findStringIndexE
  rw [Option.isSome_map', List.find?_isSome]
  constructor
  · rintro ⟨i, _, hacc⟩
    exact ⟨s.drop i, List.drop_suffix i s, by simpa using hacc⟩
  · rintro ⟨t, hsuf, hacc⟩
    obtain ⟨p, rfl⟩ := hsuf
    refine ⟨p.length, ?_, ?_⟩
    · rw [List.mem_range, List.length_append]
      omega
    · simpa [List.drop_left] using hacc

theorem matchOfFile_file_eq (r : Regex) (x : Str) (fm : FileMatch)
    (h : matchOfFile r x = some fm) : fm.file = x := by
  simp only [matchOfFile] at h
  split at h
  · split at h
    · cases h
    · cases h; rfl
  · cases h

theorem mem_filterFilesBySuffix (files : List Str) (r : Regex) (y : Str) :
    y ∈ filterFilesBySuffix files (some r) ↔
      y ∈ files ∧ ((matchOfFile r y).isSome = true ∨
        stemOf y ∈ (files.filterMap (matchOfFile r)).map FileMatch.baseName) := by
  have hres1 : ∀ z : Str,
      (z ∈ (files.filterMap (matchOfFile r)).foldl
        (fun acc fm => if fm.file ∈ acc then acc else acc ++ [fm.file]) []) ↔
      ((matchOfFile r z).isSome = true ∧ z ∈ files) := by
    intro z
    refine Iff.trans (foldl_addUniq_mem_map FileMatch.file _ _ z) ?_
    simp only [List.not_mem_nil, false_or, List.mem_map, List.mem_filterMap]
    constructor
    · rintro ⟨fm, ⟨x, hx, hfm⟩, rfl⟩
      have hx2 := matchOfFile_file_eq r x fm hfm
      rw [← hx2] at hfm hx
      exact ⟨by rw [hfm]; rfl, hx⟩
    · rintro ⟨hsome, hy⟩
      cases hfm : matchOfFile r z with
      | none => rw [hfm] at hsome; cases hsome
      | some fm =>
        exact ⟨fm, ⟨z, hy, hfm⟩, matchOfFile_file_eq r z fm hfm⟩
  have h2 := foldl_guardAdd_mem
    (fun file => stemOf file ∈ (files.filterMap (matchOfFile r)).map FileMatch.baseName)
    files
    ((files.filterMap (matchOfFile r)).foldl
      (fun acc fm => if fm.file ∈ acc then acc else acc ++ [fm.file]) []) y
  refine Iff.trans (Iff.trans (Iff.rfl) h2) ?_
  rw [hres1 y]
  constructor
  · rintro (⟨h1, h3⟩ | ⟨h1, h3⟩)
    · exact ⟨h3, Or.inl h1⟩
    · exact ⟨h1, Or.inr h3⟩
  · rintro ⟨h1, h3 | h3⟩
    · exact Or.inl ⟨h3, h1⟩
    · exact Or.inr ⟨h1, h3⟩

/-- C2: Step 1 of the classifier accepts a file iff the pattern has a match
in the file's stem ending exactly at the end of the stem (a suffix of the
stem matched in full); mid-string matches do not count.  With the pattern
for hyphen plus 1-2 digits, stems `document-1` and `document-2` pass Step 1
while `document-1-backup` does not. -/
theorem step1Check_iff_suffix_match :
    (∀ (r : Regex) (stem : Str),
      step1Check r stem = true ↔ ∃ t, t <:+ stem ∧ r.accepts t = true) ∧
    step1Check hyphenDigits12 (strL "document-1") = true ∧
    step1Check hyphenDigits12 (strL "document-2") = true ∧
    step1Check hyphenDigits12 (strL "document-1-backup") = false := by
  refine ⟨fun r stem => ?_, by decide, by decide, by decide⟩
  rw [step1Check_eq, findStringIndexE_isSome_iff]

/-! ### The date heuristics -/

theorem accepts_alt (r1 r2 : Regex) (s : Str) :
    (Regex.alt r1 r2).accepts s = (r1.accepts s || r2.accepts s) := by
  induction s generalizing r1 r2 with
  | nil => rfl
  | cons c t ih =>
    simp only [Regex.accepts, Regex.deriv]
    exact ih _ _

theorem accepts_epsStarDigit (t : Str) (h : ∀ c ∈ t, c.isDigit = true) :
    (Regex.cat .epsilon (.star .digit)).accepts t = true := by
  induction t with
  | nil => rfl
  | cons c t2 ih =>
    have hc : c.isDigit = true := h c (List.mem_cons_self c t2)
    show (Regex.alt (.cat (Regex.epsilon.deriv c) (.star .digit))
      (.cat (Regex.digit.deriv c) (.star .digit))).accepts t2 = true
    rw [accepts_alt]
    have hder : Regex.digit.deriv c = .epsilon := by
      simp [Regex.deriv, hc]
    rw [hder, ih (fun d hd => h d (List.mem_cons_of_mem _ hd))]
    simp

theorem accepts_hyphenDigitsPlus (ds : Str) (hne : ds ≠ [])
    (hd : ∀ c ∈ ds, c.isDigit = true) :
    hyphenDigitsPlus.accepts ('-' :: ds) = true := by
  cases ds with
  | nil => exact absurd rfl hne
  | cons d t =>
    have hdd : d.isDigit = true := hd d (List.mem_cons_self d t)
    have e1 : hyphenDigitsPlus.accepts ('-' :: d :: t) =
        (Regex.alt (.cat .emptyset (.cat .digit (.star .digit)))
          (.cat (Regex.digit.deriv d) (.star .digit))).accepts t := rfl
    rw [e1, accepts_alt]
    have hder : Regex.digit.deriv d = .epsilon := by simp [Regex.deriv, hdd]
    rw [hder, accepts_epsStarDigit t (fun c hc => hd c (List.mem_cons_of_mem _ hc))]
    simp

theorem trailingHyphenDigits_of_split (s p ds : Str) (hsplit : s = p ++ '-' :: ds)
    (hne : ds ≠ []) (hd : ∀ c ∈ ds, c.isDigit = true) :
    trailingHyphenDigitsMatch s = true := by
  unfold trailingHyphenDigitsMatch
  rw [findStringIndexE_isSome_iff]
  exact ⟨'-' :: ds, ⟨p, hsplit.symm⟩, accepts_hyphenDigitsPlus ds hne hd⟩

theorem isLikelyDatePattern_of_trailing (bf bn : Str)
    (h : trailingHyphenDigitsMatch bn = true) :
    isLikelyDatePattern bf bn = true := by
  simp [isLikelyDatePattern, h]

theorem isLikelyDatePattern_of_longRun (bf bn : Str)
    (h : ∃ m ∈ findHyphenDigitRuns bf, 5 ≤ m.length) :
    isLikelyDatePattern bf bn = true := by
  unfold isLikelyDatePattern
  have h2 : (findHyphenDigitRuns bf).any (fun m => 5 ≤ m.length) = true := by
    rw [List.any_eq_true]
    obtain ⟨m, hm, hlen⟩ := h
    exact ⟨m, hm, by simpa using hlen⟩
  by_cases h1 : trailingHyphenDigitsMatch bn = true
  · simp [h1]
  · by_cases h3 : 3 ≤ (findHyphenDigitRuns bf).length
    · simp [h1, h3]
    · simp [h1, h3, h2]

theorem matchOfFile_none_of_datelike (r : Regex) (file : Str)
    (hd : isLikelyDatePattern (stemOf file) (replaceAllEnd r (stemOf file)) = true) :
    matchOfFile r file = none := by
  simp [matchOfFile, hd]

/-- C4: an anchored match whose residual base name ends in a hyphen followed
by one or more digits is classified date-like by heuristic 1 and excluded
from the matching set; in particular `file-1-2` under the hyphen-plus-1-2-digits
pattern leaves residual `file-1`, is classified date-like, and is discarded
from the classifier result. -/
theorem trailing_residual_digits_excluded :
    (∀ (r : Regex) (file : Str) (p ds : Str),
      step1Check r (stemOf file) = true →
      replaceAllEnd r (stemOf file) = p ++ '-' :: ds →
      ds ≠ [] → (∀ c ∈ ds, c.isDigit = true) →
      isLikelyDatePattern (stemOf file) (replaceAllEnd r (stemOf file)) = true ∧
        matchOfFile r file = none) ∧
    replaceAllEnd hyphenDigits12 (strL "file-1-2") = strL "file-1" ∧
    isLikelyDatePattern (strL "file-1-2") (strL "file-1") = true ∧
    filterFilesBySuffix [strL "file.txt", strL "file-1.txt", strL "file-1-2.txt"]
      (some hyphenDigits12) = [strL "file-1.txt", strL "file.txt"] := by
  refine ⟨?_, by decide, by decide, by decide⟩
  intro r file p ds _ hres hne hd
  have hdate : isLikelyDatePattern (stemOf file) (replaceAllEnd r (stemOf file)) = true :=
    isLikelyDatePattern_of_trailing _ _
      (trailingHyphenDigits_of_split _ p ds hres hne hd)
  exact ⟨hdate, matchOfFile_none_of_datelike r file hdate⟩

/-- Witness for the C4 theorem at a concrete input: `file-1-2.txt` with the
hyphen-plus-1-2-digits pattern has residual `file-1` and is dropped. -/
theorem trailing_residual_digits_excluded_witness :
    isLikelyDatePattern (stemOf (strL "file-1-2.txt"))
      (replaceAllEnd hyphenDigits12 (stemOf (strL "file-1-2.txt"))) = true ∧
    matchOfFile hyphenDigits12 (strL "file-1-2.txt") = none :=
  trailing_residual_digits_excluded.1 hyphenDigits12 (strL "file-1-2.txt")
    (strL "file") ['1'] (by decide) (by decide) (by decide) (by decide)

/-- C5: an anchored match whose stem contains a hyphen-digit run of four or
more digits (a run string of length at least 5, counting the hyphen) is
classified date-like and excluded from the matching set; and on
`{report.txt, report-1.txt, report-2024.txt}` with the hyphen-plus-1-2-digits
pattern the classifier returns exactly `{report.txt, report-1.txt}`. -/
theorem long_numeric_segment_excluded :
    (∀ (r : Regex) (file : Str),
      step1Check r (stemOf file) = true →
      (∃ m ∈ findHyphenDigitRuns (stemOf file), 5 ≤ m.length) →
      isLikelyDatePattern (stemOf file) (replaceAllEnd r (stemOf file)) = true ∧
        matchOfFile r file = none) ∧
    filterFilesBySuffix [strL "report.txt", strL "report-1.txt", strL "report-2024.txt"]
      (some hyphenDigits12) = [strL "report-1.txt", strL "report.txt"] ∧
    (∀ s, s ∈ filterFilesBySuffix
        [strL "report.txt", strL "report-1.txt", strL "report-2024.txt"]
        (some hyphenDigits12) ↔
      (s = strL "report.txt" ∨ s = strL "report-1.txt")) := by
  refine ⟨?_, by decide, ?_⟩
  · intro r file _ hrun
    have hdate := isLikelyDatePattern_of_longRun (stemOf file)
      (replaceAllEnd r (stemOf file)) hrun
    exact ⟨hdate, matchOfFile_none_of_datelike r file hdate⟩
  · intro s
    have he : filterFilesBySuffix
        [strL "report.txt", strL "report-1.txt", strL "report-2024.txt"]
        (some hyphenDigits12) = [strL "report-1.txt", strL "report.txt"] := by decide
    rw [he]
    simp only [List.mem_cons, List.not_mem_nil, or_false]
    tauto

/-- Witness for the C5 theorem at a concrete input: `a-2024b-1.txt` has an
anchored `-1` match and a 4-digit hyphen run `-2024`, so it is dropped. -/
theorem long_numeric_segment_excluded_witness :
    isLikelyDatePattern (stemOf (strL "a-2024b-1.txt"))
      (replaceAllEnd hyphenDigits12 (stemOf (strL "a-2024b-1.txt"))) = true ∧
    matchOfFile hyphenDigits12 (strL "a-2024b-1.txt") = none :=
  long_numeric_segment_excluded.1 hyphenDigits12 (strL "a-2024b-1.txt")
    (by decide) ⟨strL "-2024", by decide, by decide⟩

/-- C6: base-file recovery.  On `{document.txt, document-1.txt, document-2.txt}`
with the hyphen-plus-1-2-digits pattern the classifier returns exactly that
set: the suffixed files pass Step 1, `document.txt` itself has no anchored
match but is re-included because its stem equals an accepted base name; and
with no base file in the input, none is fabricated. -/
theorem base_file_recovery :
    filterFilesBySuffix [strL "document.txt", strL "document-1.txt", strL "document-2.txt"]
        (some hyphenDigits12) =
      [strL "document-1.txt", strL "document-2.txt", strL "document.txt"] ∧
    (∀ s, s ∈ filterFilesBySuffix
        [strL "document.txt", strL "document-1.txt", strL "document-2.txt"]
        (some hyphenDigits12) ↔
      s ∈ [strL "document.txt", strL "document-1.txt", strL "document-2.txt"]) ∧
    step1Check hyphenDigits12 (stemOf (strL "document.txt")) = false ∧
    (matchOfFile hyphenDigits12 (strL "document-1.txt")).isSome = true ∧
    (matchOfFile hyphenDigits12 (strL "document-2.txt")).isSome = true ∧
    stemOf (strL "document.txt") ∈
      (([strL "document.txt", strL "document-1.txt", strL "document-2.txt"].filterMap
        (matchOfFile hyphenDigits12)).map FileMatch.baseName) ∧
    filterFilesBySuffix [strL "document-1.txt", strL "document-2.txt"]
        (some hyphenDigits12) =
      [strL "document-1.txt", strL "document-2.txt"] := by
  refine ⟨by decide, ?_, by decide, by decide, by decide, by decide, by decide⟩
  intro s
  have he : filterFilesBySuffix
      [strL "document.txt", strL "document-1.txt", strL "document-2.txt"]
      (some hyphenDigits12) =
      [strL "document-1.txt", strL "document-2.txt", strL "document.txt"] := by decide
  rw [he]
  simp only [List.mem_cons, List.not_mem_nil, or_false]
  tauto

theorem foldl_addUniq_map_nodup {α β : Type} [BEq β] [LawfulBEq β] (f : α → β)
    (l : List α) (acc : List β) (h : acc.Nodup) :
    (l.foldl (fun a x => if f x ∈ a then a else a ++ [f x]) acc).Nodup := by
  induction l generalizing acc with
  | nil => simpa
  | cons x t ih =>
    simp only [List.foldl_cons]
    by_cases hx : f x ∈ acc
    · rw [if_pos hx]; exact ih _ h
    · rw [if_neg hx]
      refine ih _ ?_
      rw [List.nodup_append]
      exact ⟨h, List.nodup_singleton _, by
        intro a ha hax
        rw [List.mem_singleton] at hax
        exact hx (hax ▸ ha)⟩

theorem count_le_one_of_nodup {α : Type} [BEq α] [LawfulBEq α] [DecidableEq α]
    (l : List α) (h : l.Nodup) (y : α) : l.count y ≤ 1 := by
  induction l with
  | nil => simp
  | cons x t ih =>
    rw [List.count_cons]
    rcases List.nodup_cons.mp h with ⟨hx, ht⟩
    by_cases hyx : y = x
    · subst hyx
      have hz : List.count y t = 0 := List.count_eq_zero.mpr hx
      simp [hz]
    · have hb : (x == y) = false := by
        rw [beq_eq_false_iff_ne]
        exact fun hxy => hyx hxy.symm
      rw [hb]
      simpa using ih ht

/-- C8: on any input list (duplicates included) and any non-nil pattern,
the classifier result contains each path at most once, whether it entered
through Step 1 or Step 4. -/
theorem classifier_output_dedup :
    ∀ (files : List Str) (r : Regex) (y : Str),
      (filterFilesBySuffix files (some r)).count y ≤ 1 := by
  intro files r y
  have hnd : (filterFilesBySuffix files (some r)).Nodup :=
    foldl_guardAdd_nodup
      (fun file => stemOf file ∈ (files.filterMap (matchOfFile r)).map FileMatch.baseName)
      files _ (foldl_addUniq_map_nodup FileMatch.file _ [] List.nodup_nil)
  exact count_le_one_of_nodup _ hnd y

/-- C7 counterexample: the classifier applies no minimum-size check.  On the
single-file input `document-1.txt` with the hyphen-plus-1-2-digits pattern
it returns that file, not an empty result, refuting the claim that fewer
than two files yields an empty classifier result. -/
theorem single_file_classifier_not_empty :
    filterFilesBySuffix [strL "document-1.txt"] (some hyphenDigits12)
      = [strL "document-1.txt"] ∧
    filterFilesBySuffix [strL "document-1.txt"] (some hyphenDigits12) ≠ [] :=
  ⟨by decide, by decide⟩

/-- C7 amended: on fewer than two files the PrefixClusterer returns an
empty result; the SuffixClassifier has no such minimum and simply runs its
filter (a lone matching file is returned, a lone non-matching file is
dropped); neither component can fail. -/
theorem undersized_input_behavior :
    (∀ (m : Matcher) (files : List Str), files.length < 2 → m.Group files = []) ∧
    (∀ (r : Regex) (f : Str),
      filterFilesBySuffix [f] (some r) =
        if (matchOfFile r f).isSome = true then [f] else []) := by
  constructor
  · intro m files h
    unfold Matcher.Group
    rw [if_pos h]
  · intro r f
    cases hm : matchOfFile r f with
    | none => simp [filterFilesBySuffix, hm]
    | some fm =>
      have hf := matchOfFile_file_eq r f fm hm
      simp [filterFilesBySuffix, hm, hf]

/-- Witness for the C7 amended theorem at concrete inputs. -/
theorem undersized_input_behavior_witness :
    (NewMatcher 3).Group [strL "a.txt"] = [] ∧
    filterFilesBySuffix [strL "document-1.txt"] (some hyphenDigits12) =
      (if (matchOfFile hyphenDigits12 (strL "document-1.txt")).isSome = true
        then [strL "document-1.txt"] else []) :=
  ⟨undersized_input_behavior.1 (NewMatcher 3) [strL "a.txt"] (by decide),
    undersized_input_behavior.2 hyphenDigits12 (strL "document-1.txt")⟩

/-- C3 counterexample: with pattern core `b`, the file `a-1b.txt` has an
anchored Step-1 match whose residual `a-1` triggers the trailing-digits
heuristic, yet the file still appears in the classifier output: Step 4
re-includes it because its stem `a-1b` equals the base name extracted from
the accepted file `a-1bb.txt`.  This refutes the claim that a
heuristic-triggering file appears in the output on no ground whatsoever. -/
theorem datelike_file_reincluded_via_step4 :
    step1Check (Regex.char 'b') (stemOf (strL "a-1b.txt")) = true ∧
    isLikelyDatePattern (stemOf (strL "a-1b.txt"))
      (replaceAllEnd (Regex.char 'b') (stemOf (strL "a-1b.txt"))) = true ∧
    strL "a-1b.txt" ∈ filterFilesBySuffix [strL "a-1bb.txt", strL "a-1b.txt"]
      (some (Regex.char 'b')) :=
  ⟨by decide, by decide, by decide⟩

/-- C3 amended: a file whose (stem, residual) pair triggers a date heuristic
is excluded from the Step-1 matching set (`matchOfFile` yields `none`), but
it appears in the classifier output exactly when Step-4 base-file
re-inclusion fires, i.e. when its stem equals the base name of some
accepted match in the input. -/
theorem datelike_excluded_from_matching_set :
    ∀ (r : Regex) (file : Str) (files : List Str),
      isLikelyDatePattern (stemOf file) (replaceAllEnd r (stemOf file)) = true →
      matchOfFile r file = none ∧
      (file ∈ filterFilesBySuffix files (some r) ↔
        file ∈ files ∧ stemOf file ∈
          (files.filterMap (matchOfFile r)).map FileMatch.baseName) := by
  intro r file files hd
  have hnone := matchOfFile_none_of_datelike r file hd
  refine ⟨hnone, ?_⟩
  rw [mem_filterFilesBySuffix, hnone]
  simp

/-- Witness for the C3 amended theorem at the concrete counterexample
input. -/
theorem datelike_excluded_from_matching_set_witness :
    matchOfFile (Regex.char 'b') (strL "a-1b.txt") = none ∧
    (strL "a-1b.txt" ∈ filterFilesBySuffix [strL "a-1bb.txt", strL "a-1b.txt"]
        (some (Regex.char 'b')) ↔
      strL "a-1b.txt" ∈ [strL "a-1bb.txt", strL "a-1b.txt"] ∧
      stemOf (strL "a-1b.txt") ∈
        ([strL "a-1bb.txt", strL "a-1b.txt"].filterMap
          (matchOfFile (Regex.char 'b'))).map FileMatch.baseName) :=
  datelike_excluded_from_matching_set (Regex.char 'b') (strL "a-1b.txt")
    [strL "a-1bb.txt", strL "a-1b.txt"] (by decide)

/-! ### Union-find: chains, roots, and the acyclicity invariant -/

theorem iterate_absorb (f : Nat → Nat) (x : Nat) (a b : Nat) (hab : a ≤ b)
    (hfix : f (f^[a] x) = f^[a] x) : f^[b] x = f^[a] x := by
  obtain ⟨d, rfl⟩ := Nat.exists_eq_add_of_le hab
  rw [Nat.add_comm, Function.iterate_add_apply]
  exact Function.iterate_fixed hfix d

theorem iterate_lt {n : Nat} {f : Nat → Nat} (hf : UFInv n f) {x : Nat} (hx : x < n)
    (m : Nat) : f^[m] x < n := by
  induction m with
  | zero => simpa
  | succ m ih =>
    rw [Function.iterate_succ_apply']
    exact hf.2.1 _ ih

theorem rootOfN_fixed {n : Nat} {f : Nat → Nat} (hf : UFInv n f) (x : Nat) :
    f (rootOfN n f x) = rootOfN n f x := by
  obtain ⟨hge, hlt, hreach⟩ := hf
  by_cases hx : n ≤ x
  · have hfx : f x = x := hge x hx
    unfold rootOfN
    rw [Function.iterate_fixed hfx]
    exact hfx
  · push_neg at hx
    have hex : ∃ k, f (f^[k] x) = f^[k] x := hreach x
    set K := Nat.find hex with hK
    have hKfix : f (f^[K] x) = f^[K] x := Nat.find_spec hex
    have hlt_iter : ∀ m, f^[m] x < n := fun m => iterate_lt ⟨hge, hlt, hreach⟩ hx m
    have hinj : ∀ a b, a < b → b ≤ K → f^[a] x ≠ f^[b] x := by
      intro a b hab hbK heq
      have hper : ∀ t, f^[a + (b - a) * t] x = f^[a] x := by
        intro t
        induction t with
        | zero => simp
        | succ t ih =>
          have he : a + (b - a) * (t + 1) = (b - a) + (a + (b - a) * t) := by
            rw [Nat.mul_succ]; omega
          rw [he, Function.iterate_add_apply, ih]
          rw [← Function.iterate_add_apply]
          have he2 : b - a + a = b := by omega
          rw [he2, ← heq]
      have hmul : K ≤ (b - a) * K := Nat.le_mul_of_pos_left K (by omega)
      have hbig : K ≤ a + (b - a) * K := by omega
      have h1 : f^[a + (b - a) * K] x = f^[K] x :=
        iterate_absorb f x K (a + (b - a) * K) hbig hKfix
      have h2 : f^[a] x = f^[K] x := by rw [← hper K, h1]
      have hafix : f (f^[a] x) = f^[a] x := by rw [h2]; exact hKfix
      exact Nat.find_min hex (show a < K by omega) hafix
    have hcard : K + 1 ≤ n := by
      have hginj : Function.Injective
          (fun m : Fin (K + 1) => (⟨f^[m.1] x, hlt_iter m.1⟩ : Fin n)) := by
        intro a b hab
        simp only [Fin.mk.injEq] at hab
        by_contra hne
        rcases Nat.lt_or_ge a.1 b.1 with h | h
        · exact hinj a.1 b.1 h (Nat.le_of_lt_succ b.2) hab
        · rcases Nat.lt_or_ge b.1 a.1 with h2 | h2
          · exact hinj b.1 a.1 h2 (Nat.le_of_lt_succ a.2) hab.symm
          · exact hne (Fin.ext (by omega))
      simpa using Fintype.card_le_of_injective _ hginj
    unfold rootOfN
    rw [iterate_absorb f x K n (by omega) hKfix]
    exact hKfix

theorem rootOfN_eq_of_fixed {n : Nat} {f : Nat → Nat} (hf : UFInv n f) {x z : Nat}
    (m : Nat) (hm : f^[m] x = z) (hz : f z = z) : rootOfN n f x = z := by
  have hmfix : f (f^[m] x) = f^[m] x := by rw [hm]; exact hz
  have hroot := rootOfN_fixed hf x
  unfold rootOfN at hroot ⊢
  rcases Nat.le_total m n with h | h
  · rw [iterate_absorb f x m n h hmfix, hm]
  · have h4 := iterate_absorb f x n m h hroot
    rw [← h4, hm]

theorem rootOfN_step {n : Nat} {f : Nat → Nat} (hf : UFInv n f) (y : Nat) :
    rootOfN n f (f y) = rootOfN n f y := by
  show f^[n] (f y) = rootOfN n f y
  rw [← Function.iterate_succ_apply, Function.iterate_succ_apply']
  exact rootOfN_fixed hf y

theorem fixed_of_rootOfN_self {n : Nat} {f : Nat → Nat} (hf : UFInv n f) {x : Nat}
    (h : rootOfN n f x = x) : f x = x := by
  have h2 := rootOfN_fixed hf x
  rw [h] at h2
  exact h2

theorem rootOfN_of_fixed {n : Nat} {f : Nat → Nat} (hf : UFInv n f) {z : Nat}
    (hz : f z = z) : rootOfN n f z = z :=
  rootOfN_eq_of_fixed hf 0 rfl hz

theorem UFInv_updF {n : Nat} {f : Nat → Nat} (hf : UFInv n f) {a r : Nat}
    (hrfix : f r = r) (hra : r ≠ a) (han : a < n) (hrn : r < n)
    (hc : r = rootOfN n f a ∨ f a = a) :
    UFInv n (updF f a r) ∧
    ∀ y, rootOfN n (updF f a r) y =
      if rootOfN n f y = a then r else rootOfN n f y := by
  have hstep_ne : ∀ y, y ≠ a → updF f a r y = f y := by
    intro y hy
    simp [updF, hy]
  have hstep_a : updF f a r a = r := by simp [updF]
  have htgt_fix : ∀ y,
      updF f a r (if rootOfN n f y = a then r else rootOfN n f y) =
        (if rootOfN n f y = a then r else rootOfN n f y) := by
    intro y
    by_cases hy : rootOfN n f y = a
    · rw [if_pos hy, hstep_ne r hra]
      exact hrfix
    · rw [if_neg hy, hstep_ne _ hy]
      exact rootOfN_fixed hf y
  have hfixed_case : ∀ y, f y = y →
      ∃ m, (updF f a r)^[m] y = (if rootOfN n f y = a then r else rootOfN n f y) := by
    intro y hy
    have hry : rootOfN n f y = y := rootOfN_of_fixed hf hy
    rw [hry]
    by_cases hya : y = a
    · subst hya
      rw [if_pos rfl]
      exact ⟨1, by rw [Function.iterate_one]; exact hstep_a⟩
    · rw [if_neg hya]
      exact ⟨0, rfl⟩
  have hreach2 : ∀ k y, f (f^[k] y) = f^[k] y →
      ∃ m, (updF f a r)^[m] y = (if rootOfN n f y = a then r else rootOfN n f y) := by
    intro k
    induction k with
    | zero =>
      intro y hy
      exact hfixed_case y (by simpa using hy)
    | succ k ih =>
      intro y hy
      by_cases hyfix : f y = y
      · exact hfixed_case y hyfix
      · by_cases hya : y = a
        · rcases hc with hc | hc
          · have hcond : rootOfN n f y ≠ a := by
              intro h
              have hyy : rootOfN n f y = y := by rw [h, ← hya]
              exact hyfix (fixed_of_rootOfN_self hf hyy)
            rw [if_neg hcond]
            refine ⟨1, ?_⟩
            rw [Function.iterate_one, hya, hstep_a, hc]
          · exact absurd (by rw [hya]; exact hc) hyfix
        · have hstep : updF f a r y = f y := hstep_ne y hya
          have hy2 : f (f^[k] (f y)) = f^[k] (f y) := by
            rw [← Function.iterate_succ_apply]
            exact hy
          obtain ⟨m, hm⟩ := ih (f y) hy2
          refine ⟨m + 1, ?_⟩
          rw [Function.iterate_succ_apply, hstep, hm, rootOfN_step hf y]
  have hinv2 : UFInv n (updF f a r) := by
    refine ⟨?_, ?_, ?_⟩
    · intro x hxge
      have hxa : x ≠ a := by omega
      rw [hstep_ne x hxa]
      exact hf.1 x hxge
    · intro x hxlt
      by_cases hxa : x = a
      · subst hxa; rw [hstep_a]; exact hrn
      · rw [hstep_ne x hxa]; exact hf.2.1 x hxlt
    · intro y
      obtain ⟨k, hk⟩ := hf.2.2 y
      obtain ⟨m, hm⟩ := hreach2 k y hk
      exact ⟨m, by rw [hm]; exact htgt_fix y⟩
  refine ⟨hinv2, fun y => ?_⟩
  obtain ⟨k, hk⟩ := hf.2.2 y
  obtain ⟨m, hm⟩ := hreach2 k y hk
  exact rootOfN_eq_of_fixed hinv2 m hm (htgt_fix y)

theorem findRootF_spec {n : Nat} {f : Nat → Nat} (hf : UFInv n f) :
    ∀ (fuel x : Nat), f (f^[fuel] x) = f^[fuel] x →
      (findRootF fuel f x).1 = rootOfN n f x ∧
      UFInv n (findRootF fuel f x).2 ∧
      ∀ y, rootOfN n (findRootF fuel f x).2 y = rootOfN n f y := by
  intro fuel
  induction fuel with
  | zero =>
    intro x hx
    exact ⟨(rootOfN_of_fixed hf (by simpa using hx)).symm, hf, fun y => rfl⟩
  | succ fuel ih =>
    intro x hx
    by_cases hxfix : f x = x
    · rw [show findRootF (fuel + 1) f x = (x, f) from by rw [findRootF, if_pos hxfix]]
      exact ⟨(rootOfN_of_fixed hf hxfix).symm, hf, fun y => rfl⟩
    · have hxa : x < n := by
        by_contra hge
        exact hxfix (hf.1 x (by omega))
      have hrec : f (f^[fuel] (f x)) = f^[fuel] (f x) := by
        rw [← Function.iterate_succ_apply]
        exact hx
      obtain ⟨h1, h2, h3⟩ := ih (f x) hrec
      have heq : findRootF (fuel + 1) f x =
          ((findRootF fuel f (f x)).1,
            updF (findRootF fuel f (f x)).2 x (findRootF fuel f (f x)).1) := by
        rw [findRootF, if_neg hxfix]
      rw [heq]
      have hp1root : (findRootF fuel f (f x)).1 = rootOfN n f x := by
        rw [h1, rootOfN_step hf]
      rw [hp1root]
      have hrfix_f : f (rootOfN n f x) = rootOfN n f x := rootOfN_fixed hf x
      have hroot_p2 : rootOfN n (findRootF fuel f (f x)).2 (rootOfN n f x) =
          rootOfN n f x := by
        rw [h3]
        exact rootOfN_of_fixed hf hrfix_f
      have hrfix2 : (findRootF fuel f (f x)).2 (rootOfN n f x) = rootOfN n f x :=
        fixed_of_rootOfN_self h2 hroot_p2
      have hne : rootOfN n f x ≠ x := by
        intro h
        exact hxfix (fixed_of_rootOfN_self hf h)
      have hrn : rootOfN n f x < n := iterate_lt hf hxa n
      have hc : rootOfN n f x = rootOfN n (findRootF fuel f (f x)).2 x ∨
          (findRootF fuel f (f x)).2 x = x := Or.inl (by rw [h3])
      obtain ⟨hinv3, hform⟩ := UFInv_updF h2 hrfix2 hne hxa hrn hc
      refine ⟨rfl, hinv3, fun y => ?_⟩
      rw [hform y, h3 y]
      by_cases hyx : rootOfN n f y = x
      · exfalso
        have hfix := rootOfN_fixed hf y
        rw [hyx] at hfix
        exact hxfix hfix
      · rw [if_neg hyx]

theorem findRootF_stable (f : Nat → Nat) :
    ∀ (fuel x : Nat), f (f^[fuel] x) = f^[fuel] x →
      findRootF (fuel + 1) f x = findRootF fuel f x := by
  intro fuel
  induction fuel with
  | zero =>
    intro x hx
    have hxfix : f x = x := by simpa using hx
    rw [show findRootF (0 + 1) f x = (x, f) from by rw [findRootF, if_pos hxfix]]
    rfl
  | succ fuel ih =>
    intro x hx
    by_cases hxfix : f x = x
    · rw [show findRootF (fuel + 1 + 1) f x = (x, f) from by rw [findRootF, if_pos hxfix],
        show findRootF (fuel + 1) f x = (x, f) from by rw [findRootF, if_pos hxfix]]
    · have hrec : f (f^[fuel] (f x)) = f^[fuel] (f x) := by
        rw [← Function.iterate_succ_apply]
        exact hx
      rw [show findRootF (fuel + 1 + 1) f x =
            ((findRootF (fuel + 1) f (f x)).1,
              updF (findRootF (fuel + 1) f (f x)).2 x (findRootF (fuel + 1) f (f x)).1)
          from by rw [findRootF, if_neg hxfix]]
      rw [show findRootF (fuel + 1) f x =
            ((findRootF fuel f (f x)).1,
              updF (findRootF fuel f (f x)).2 x (findRootF fuel f (f x)).1)
          from by rw [findRootF, if_neg hxfix]]
      rw [ih (f x) hrec]

theorem findRootF_fuel_ge {n : Nat} {f : Nat → Nat} (hf : UFInv n f) (x : Nat) :
    ∀ fuel, n ≤ fuel → findRootF fuel f x = findRootF n f x := by
  intro fuel hfuel
  obtain ⟨d, rfl⟩ := Nat.exists_eq_add_of_le hfuel
  clear hfuel
  induction d with
  | zero => rfl
  | succ d ih =>
    have hfix : f (f^[n + d] x) = f^[n + d] x := by
      have h1 : f^[n + d] x = f^[n] x :=
        iterate_absorb f x n (n + d) (by omega) (rootOfN_fixed hf x)
      rw [h1]
      exact rootOfN_fixed hf x
    rw [show n + (d + 1) = (n + d) + 1 from rfl]
    rw [findRootF_stable f (n + d) x hfix]
    exact ih

theorem mergeStep_spec {n : Nat} (names : Nat → Str) (minLen : Nat)
    {f : Nat → Nat} (hf : UFInv n f) (ij : Nat × Nat)
    (hi : ij.1 < n) (hj : ij.2 < n) :
    UFInv n (mergeStep names minLen n f ij) ∧
    ∀ y, rootOfN n (mergeStep names minLen n f ij) y =
      if minLen ≤ (commonPrefix (names ij.1) (names ij.2)).length ∧
          rootOfN n f y = rootOfN n f ij.2 ∧ rootOfN n f ij.1 ≠ rootOfN n f ij.2
        then rootOfN n f ij.1 else rootOfN n f y := by
  by_cases hpre : minLen ≤ (commonPrefix (names ij.1) (names ij.2)).length
  · obtain ⟨h11, h12, h13⟩ := findRootF_spec hf n ij.1 (rootOfN_fixed hf ij.1)
    obtain ⟨h21, h22, h23⟩ :=
      findRootF_spec h12 n ij.2 (rootOfN_fixed h12 ij.2)
    have hq1 : (findRootF n f ij.1).1 = rootOfN n f ij.1 := h11
    have hq2 : (findRootF n (findRootF n f ij.1).2 ij.2).1 = rootOfN n f ij.2 := by
      rw [h21, h13]
    have hroots23 : ∀ y, rootOfN n (findRootF n (findRootF n f ij.1).2 ij.2).2 y =
        rootOfN n f y := by
      intro y
      rw [h23, h13]
    have hmeq : mergeStep names minLen n f ij =
        (if (findRootF n f ij.1).1 ≠ (findRootF n (findRootF n f ij.1).2 ij.2).1 then
          updF (findRootF n (findRootF n f ij.1).2 ij.2).2
            (findRootF n (findRootF n f ij.1).2 ij.2).1 (findRootF n f ij.1).1
        else (findRootF n (findRootF n f ij.1).2 ij.2).2) := by
      unfold mergeStep
      rw [if_pos hpre]
    by_cases hrr : rootOfN n f ij.1 = rootOfN n f ij.2
    · have hcond : ¬((findRootF n f ij.1).1 ≠
          (findRootF n (findRootF n f ij.1).2 ij.2).1) := by
        rw [hq1, hq2]
        exact fun h => h hrr
      rw [hmeq, if_neg hcond]
      refine ⟨h22, fun y => ?_⟩
      rw [hroots23 y]
      rw [if_neg]
      rintro ⟨-, -, hne⟩
      exact hne hrr
    · have hcond : (findRootF n f ij.1).1 ≠
          (findRootF n (findRootF n f ij.1).2 ij.2).1 := by
        rw [hq1, hq2]
        exact hrr
      rw [hmeq, if_pos hcond, hq1, hq2]
      have hrIfix : f (rootOfN n f ij.1) = rootOfN n f ij.1 := rootOfN_fixed hf ij.1
      have hrJfix : f (rootOfN n f ij.2) = rootOfN n f ij.2 := rootOfN_fixed hf ij.2
      have hfix2I : (findRootF n (findRootF n f ij.1).2 ij.2).2 (rootOfN n f ij.1) =
          rootOfN n f ij.1 :=
        fixed_of_rootOfN_self h22 (by rw [hroots23]; exact rootOfN_of_fixed hf hrIfix)
      have hfix2J : (findRootF n (findRootF n f ij.1).2 ij.2).2 (rootOfN n f ij.2) =
          rootOfN n f ij.2 :=
        fixed_of_rootOfN_self h22 (by rw [hroots23]; exact rootOfN_of_fixed hf hrJfix)
      have hrIn : rootOfN n f ij.1 < n := iterate_lt hf hi n
      have hrJn : rootOfN n f ij.2 < n := iterate_lt hf hj n
      obtain ⟨hinv3, hform⟩ := UFInv_updF h22 hfix2I
        (fun h => hrr h) hrJn hrIn (Or.inr hfix2J)
      refine ⟨hinv3, fun y => ?_⟩
      rw [hform y, hroots23 y]
      by_cases hy : rootOfN n f y = rootOfN n f ij.2
      · rw [if_pos hy, if_pos ⟨hpre, hy, hrr⟩]
      · rw [if_neg hy, if_neg]
        rintro ⟨-, hy2, -⟩
        exact hy hy2
  · have hmeq : mergeStep names minLen n f ij = f := by
      unfold mergeStep
      rw [if_neg hpre]
    rw [hmeq]
    refine ⟨hf, fun y => ?_⟩
    rw [if_neg]
    rintro ⟨hp, -, -⟩
    exact hpre hp

theorem commonPrefix_comm (a b : Str) : commonPrefix a b = commonPrefix b a := by
  induction a generalizing b with
  | nil => cases b <;> rfl
  | cons x as ih =>
    cases b with
    | nil => rfl
    | cons y bs =>
      unfold commonPrefix
      by_cases h : x = y
      · subst h
        rw [if_pos rfl, if_pos rfl, ih]
      · rw [if_neg h, if_neg (fun h2 => h h2.symm)]

theorem commonPrefix_length_le_left (a b : Str) :
    (commonPrefix a b).length ≤ a.length := by
  induction a generalizing b with
  | nil => cases b <;> simp [commonPrefix]
  | cons x as ih =>
    cases b with
    | nil => simp [commonPrefix]
    | cons y bs =>
      unfold commonPrefix
      by_cases h : x = y
      · rw [if_pos h]
        simpa using ih bs
      · rw [if_neg h]
        simp

theorem commonPrefix_self (a : Str) : commonPrefix a a = a := by
  induction a with
  | nil => rfl
  | cons x as ih =>
    unfold commonPrefix
    rw [if_pos rfl, ih]

theorem RelP_symm {names : Nat → Str} {minLen n i j : Nat}
    (h : RelP names minLen n i j) : RelP names minLen n j i := by
  obtain ⟨h1, h2, h3, h4⟩ := h
  refine ⟨h1.symm, h3, h2, ?_⟩
  rw [commonPrefix_comm]
  exact h4

theorem mem_pairsList {n : Nat} (p : Nat × Nat) :
    p ∈ pairsList n ↔ p.1 < p.2 ∧ p.2 < n := by
  unfold pairsList
  rw [List.mem_flatMap]
  constructor
  · rintro ⟨i, hi, hp⟩
    rw [List.mem_map] at hp
    obtain ⟨j, hj, rfl⟩ := hp
    rw [List.mem_filter] at hj
    obtain ⟨hj1, hj2⟩ := hj
    rw [List.mem_range] at hj1
    exact ⟨by simpa using hj2, hj1⟩
  · rintro ⟨h1, h2⟩
    refine ⟨p.1, ?_, ?_⟩
    · rw [List.mem_range]
      omega
    · rw [List.mem_map]
      refine ⟨p.2, ?_, rfl⟩
      rw [List.mem_filter, List.mem_range]
      exact ⟨h2, by simpa using h1⟩

theorem eqvGen_lub {α : Type} {r s : α → α → Prop}
    (h : ∀ x y, r x y → Relation.EqvGen s x y) :
    ∀ {x y}, Relation.EqvGen r x y → Relation.EqvGen s x y := by
  intro x y hxy
  induction hxy with
  | rel x y hr => exact h x y hr
  | refl x => exact Relation.EqvGen.refl x
  | symm x y _ ih => exact Relation.EqvGen.symm x y ih
  | trans x y z _ _ ih1 ih2 => exact Relation.EqvGen.trans x y z ih1 ih2

theorem foldl_mergeStep_roots {n : Nat} (names : Nat → Str) (minLen : Nat) :
    ∀ (L : List (Nat × Nat)) (f : Nat → Nat), UFInv n f →
      (∀ p ∈ L, p.1 < n ∧ p.2 < n) →
      UFInv n (L.foldl (fun g ij => mergeStep names minLen n g ij) f) ∧
      ∀ i j,
        (rootOfN n (L.foldl (fun g ij => mergeStep names minLen n g ij) f) i =
          rootOfN n (L.foldl (fun g ij => mergeStep names minLen n g ij) f) j ↔
        Relation.EqvGen
          (fun a b => rootOfN n f a = rootOfN n f b ∨
            (((a, b) ∈ L ∨ (b, a) ∈ L) ∧
              minLen ≤ (commonPrefix (names a) (names b)).length)) i j) := by
  intro L
  induction L with
  | nil =>
    intro f hf _
    refine ⟨hf, fun i j => ?_⟩
    simp only [List.foldl_nil]
    constructor
    · intro h
      exact Relation.EqvGen.rel i j (Or.inl h)
    · intro h
      induction h with
      | rel a b hab =>
        rcases hab with hab | hab
        · exact hab
        · rcases hab.1 with h2 | h2 <;> simp at h2
      | refl a => rfl
      | symm a b _ ih => exact ih.symm
      | trans a b c _ _ ih1 ih2 => exact ih1.trans ih2
  | cons q L ih =>
    intro f hf hwf
    have hq := hwf q (List.mem_cons_self q L)
    obtain ⟨hmerge_inv, hmerge_form⟩ := mergeStep_spec names minLen hf q hq.1 hq.2
    simp only [List.foldl_cons]
    obtain ⟨hinv2, hiff⟩ := ih (mergeStep names minLen n f q) hmerge_inv
      (fun p hp => hwf p (List.mem_cons_of_mem _ hp))
    refine ⟨hinv2, fun i j => ?_⟩
    rw [hiff i j]
    constructor
    · refine eqvGen_lub ?_
      intro a b hab
      rcases hab with hab | hab
      · rw [hmerge_form a, hmerge_form b] at hab
        by_cases hPa : minLen ≤ (commonPrefix (names q.1) (names q.2)).length ∧
            rootOfN n f a = rootOfN n f q.2 ∧
            rootOfN n f q.1 ≠ rootOfN n f q.2
        · rw [if_pos hPa] at hab
          by_cases hPb : minLen ≤ (commonPrefix (names q.1) (names q.2)).length ∧
              rootOfN n f b = rootOfN n f q.2 ∧
              rootOfN n f q.1 ≠ rootOfN n f q.2
          · rw [if_pos hPb] at hab
            exact Relation.EqvGen.rel a b (Or.inl (by rw [hPa.2.1, hPb.2.1]))
          · rw [if_neg hPb] at hab
            have hT : ((q.1, q.2) ∈ q :: L ∨ (q.2, q.1) ∈ q :: L) ∧
                minLen ≤ (commonPrefix (names q.1) (names q.2)).length :=
              ⟨Or.inl (List.mem_cons_self q L), hPa.1⟩
            refine Relation.EqvGen.trans a q.2 b
              (Relation.EqvGen.rel a q.2 (Or.inl hPa.2.1)) ?_
            refine Relation.EqvGen.trans q.2 q.1 b
              (Relation.EqvGen.symm q.1 q.2 (Relation.EqvGen.rel q.1 q.2 (Or.inr hT))) ?_
            exact Relation.EqvGen.rel q.1 b (Or.inl hab)
        · rw [if_neg hPa] at hab
          by_cases hPb : minLen ≤ (commonPrefix (names q.1) (names q.2)).length ∧
              rootOfN n f b = rootOfN n f q.2 ∧
              rootOfN n f q.1 ≠ rootOfN n f q.2
          · rw [if_pos hPb] at hab
            have hT : ((q.1, q.2) ∈ q :: L ∨ (q.2, q.1) ∈ q :: L) ∧
                minLen ≤ (commonPrefix (names q.1) (names q.2)).length :=
              ⟨Or.inl (List.mem_cons_self q L), hPb.1⟩
            refine Relation.EqvGen.trans a q.1 b
              (Relation.EqvGen.rel a q.1 (Or.inl hab)) ?_
            refine Relation.EqvGen.trans q.1 q.2 b
              (Relation.EqvGen.rel q.1 q.2 (Or.inr hT)) ?_
            exact Relation.EqvGen.symm b q.2 (Relation.EqvGen.rel b q.2 (Or.inl hPb.2.1))
          · rw [if_neg hPb] at hab
            exact Relation.EqvGen.rel a b (Or.inl hab)
      · exact Relation.EqvGen.rel a b
          (Or.inr ⟨Or.imp (List.mem_cons_of_mem q) (List.mem_cons_of_mem q) hab.1, hab.2⟩)
    · refine eqvGen_lub ?_
      intro a b hab
      rcases hab with hab | hab
      · refine Relation.EqvGen.rel a b (Or.inl ?_)
        rw [hmerge_form a, hmerge_form b]
        by_cases hPa : minLen ≤ (commonPrefix (names q.1) (names q.2)).length ∧
            rootOfN n f a = rootOfN n f q.2 ∧
            rootOfN n f q.1 ≠ rootOfN n f q.2
        · have hPb : minLen ≤ (commonPrefix (names q.1) (names q.2)).length ∧
              rootOfN n f b = rootOfN n f q.2 ∧
              rootOfN n f q.1 ≠ rootOfN n f q.2 :=
            ⟨hPa.1, by rw [← hab]; exact hPa.2.1, hPa.2.2⟩
          rw [if_pos hPa, if_pos hPb]
        · have hPb : ¬(minLen ≤ (commonPrefix (names q.1) (names q.2)).length ∧
              rootOfN n f b = rootOfN n f q.2 ∧
              rootOfN n f q.1 ≠ rootOfN n f q.2) := by
            intro hPb
            exact hPa ⟨hPb.1, by rw [hab]; exact hPb.2.1, hPb.2.2⟩
          rw [if_neg hPa, if_neg hPb]
          exact hab
      · obtain ⟨hmem, hpre⟩ := hab
        have hE1 : minLen ≤ (commonPrefix (names q.1) (names q.2)).length →
            Relation.EqvGen (fun a b =>
              rootOfN n (mergeStep names minLen n f q) a =
                rootOfN n (mergeStep names minLen n f q) b ∨
              (((a, b) ∈ L ∨ (b, a) ∈ L) ∧
                minLen ≤ (commonPrefix (names a) (names b)).length)) q.1 q.2 := by
          intro hpre12
          refine Relation.EqvGen.rel q.1 q.2 (Or.inl ?_)
          rw [hmerge_form q.1, hmerge_form q.2]
          by_cases hrr : rootOfN n f q.1 = rootOfN n f q.2
          · rw [if_neg (by rintro ⟨-, -, hne⟩; exact hne hrr),
              if_neg (by rintro ⟨-, -, hne⟩; exact hne hrr)]
            exact hrr
          · rw [if_neg (by rintro ⟨-, heq, hne⟩; exact hne heq),
              if_pos ⟨hpre12, rfl, hrr⟩]
        rcases hmem with hmem | hmem
        · rcases List.mem_cons.mp hmem with heq | hmem2
          · have ha : a = q.1 := by rw [← heq]
            have hb : b = q.2 := by rw [← heq]
            rw [ha, hb] at hpre ⊢
            exact hE1 hpre
          · exact Relation.EqvGen.rel a b (Or.inr ⟨Or.inl hmem2, hpre⟩)
        · rcases List.mem_cons.mp hmem with heq | hmem2
          · have ha : a = q.2 := by rw [← heq]
            have hb : b = q.1 := by rw [← heq]
            rw [ha, hb] at hpre ⊢
            rw [commonPrefix_comm] at hpre
            exact Relation.EqvGen.symm q.1 q.2 (hE1 hpre)
          · exact Relation.EqvGen.rel a b (Or.inr ⟨Or.inr hmem2, hpre⟩)

theorem UFInv_id (n : Nat) : UFInv n id :=
  ⟨fun _ _ => rfl, fun _ h => h, fun _ => ⟨0, rfl⟩⟩

theorem rootOfN_id (n x : Nat) : rootOfN n id x = x := by
  unfold rootOfN
  rw [Function.iterate_id]
  rfl

theorem runPairs_spec (names : Nat → Str) (minLen n : Nat) :
    UFInv n (runPairs names minLen n) ∧
    ∀ i j,
      (rootOfN n (runPairs names minLen n) i = rootOfN n (runPairs names minLen n) j ↔
        Relation.EqvGen (RelP names minLen n) i j) := by
  have hwf : ∀ p ∈ pairsList n, p.1 < n ∧ p.2 < n := by
    intro p hp
    rw [mem_pairsList] at hp
    omega
  obtain ⟨hinv, hiff⟩ :=
    foldl_mergeStep_roots names minLen (pairsList n) id (UFInv_id n) hwf
  refine ⟨hinv, fun i j => ?_⟩
  unfold runPairs
  rw [hiff i j]
  constructor
  · refine eqvGen_lub ?_
    intro a b hab
    rcases hab with hab | hab
    · rw [rootOfN_id, rootOfN_id] at hab
      subst hab
      exact Relation.EqvGen.refl a
    · obtain ⟨hmem, hpre⟩ := hab
      rcases hmem with hmem | hmem
      · rw [mem_pairsList] at hmem
        simp only at hmem
        exact Relation.EqvGen.rel a b ⟨by omega, by omega, by omega, hpre⟩
      · rw [mem_pairsList] at hmem
        simp only at hmem
        exact Relation.EqvGen.rel a b ⟨by omega, by omega, by omega, hpre⟩
  · refine eqvGen_lub ?_
    intro a b hab
    obtain ⟨hne, han, hbn, hpre⟩ := hab
    refine Relation.EqvGen.rel a b (Or.inr ⟨?_, hpre⟩)
    rcases Nat.lt_or_ge a b with h | h
    · exact Or.inl (by rw [mem_pairsList]; exact ⟨h, hbn⟩)
    · have h2 : b < a := by omega
      exact Or.inr (by rw [mem_pairsList]; exact ⟨h2, han⟩)

theorem collectRoots_fst {n : Nat} {f : Nat → Nat} (hf : UFInv n f) :
    (collectRoots n f).1 = (List.range n).map (rootOfN n f) := by
  unfold collectRoots
  suffices h : ∀ (l : List Nat) (acc0 : List Nat) (g : Nat → Nat), UFInv n g →
      (∀ y, rootOfN n g y = rootOfN n f y) →
      (l.foldl (fun acc i =>
        (acc.1 ++ [(findRootF n acc.2 i).1], (findRootF n acc.2 i).2)) (acc0, g)).1 =
        acc0 ++ l.map (rootOfN n f) by
    have h2 := h (List.range n) [] f hf (fun y => rfl)
    rw [List.nil_append] at h2
    exact h2
  intro l
  induction l with
  | nil =>
    intro acc0 g hg hroots
    simp
  | cons i t ih =>
    intro acc0 g hg hroots
    simp only [List.foldl_cons, List.map_cons]
    obtain ⟨h1, h2, h3⟩ := findRootF_spec hg n i (rootOfN_fixed hg i)
    rw [ih (acc0 ++ [(findRootF n g i).1]) (findRootF n g i).2 h2
      (fun y => by rw [h3 y, hroots y])]
    rw [h1, hroots i]
    simp

theorem groupRoot_iff (files : List Str) (minLen : Nat) (i j : Nat) :
    groupRoot files minLen i = groupRoot files minLen j ↔
      Relation.EqvGen (RelP (groupNames files) minLen files.length) i j :=
  (runPairs_spec (groupNames files) minLen files.length).2 i j

theorem eqvGen_deg {α : Type} {r : α → α → Prop} (hsymm : ∀ a b, r a b → r b a)
    {i j : α} (h : Relation.EqvGen r i j) :
    i = j ∨ ((∃ k, r i k) ∧ (∃ k, r j k)) := by
  induction h with
  | rel a b hab => exact Or.inr ⟨⟨b, hab⟩, ⟨a, hsymm a b hab⟩⟩
  | refl a => exact Or.inl rfl
  | symm a b _ ih =>
    rcases ih with h | ⟨h1, h2⟩
    · exact Or.inl h.symm
    · exact Or.inr ⟨h2, h1⟩
  | trans a b c _ _ ih1 ih2 =>
    rcases ih1 with h1 | h1
    · subst h1
      exact ih2
    · rcases ih2 with h2 | h2
      · subst h2
        exact Or.inr h1
      · exact Or.inr ⟨h1.1, h2.2⟩

theorem two_le_length_of_mem_ne {α : Type} {l : List α} {a b : α}
    (ha : a ∈ l) (hb : b ∈ l) (hne : a ≠ b) : 2 ≤ l.length := by
  cases l with
  | nil => cases ha
  | cons x t =>
    cases t with
    | nil =>
      rw [List.mem_singleton] at ha hb
      exact absurd (ha.trans hb.symm) hne
    | cons y u =>
      simp only [List.length_cons]
      omega

theorem exists_two_of_two_le_length {α : Type} {l : List α} (h : 2 ≤ l.length)
    (hnd : l.Nodup) : ∃ a b, a ∈ l ∧ b ∈ l ∧ a ≠ b := by
  cases l with
  | nil => simp at h
  | cons x t =>
    cases t with
    | nil => simp at h
    | cons y u =>
      refine ⟨x, y, List.mem_cons_self _ _,
        List.mem_cons_of_mem _ (List.mem_cons_self _ _), ?_⟩
      rcases List.nodup_cons.mp hnd with ⟨hx, _⟩
      intro heq
      exact hx (by rw [heq]; exact List.mem_cons_self y u)

theorem roots_getD {n : Nat} (f : Nat → Nat) {i : Nat} (hi : i < n) :
    ((List.range n).map (rootOfN n f)).getD i 0 = rootOfN n f i := by
  rw [List.getD_eq_getElem _ _ (by simpa using hi)]
  simp

theorem mem_groupBucketIdx (files : List Str) (minLen r i : Nat) :
    (i ∈ (List.range files.length).filter
      (fun i => ((List.range files.length).map (groupRoot files minLen)).getD i 0 == r)) ↔
    i < files.length ∧ groupRoot files minLen i = r := by
  rw [List.mem_filter, List.mem_range]
  constructor
  · rintro ⟨h1, h2⟩
    refine ⟨h1, ?_⟩
    have h3 := roots_getD (n := files.length)
      (runPairs (groupNames files) minLen files.length) h1
    rw [show ((List.range files.length).map (groupRoot files minLen)) =
      ((List.range files.length).map
        (rootOfN files.length (runPairs (groupNames files) minLen files.length)))
      from rfl, h3] at h2
    exact beq_iff_eq.mp h2
  · rintro ⟨h1, h2⟩
    refine ⟨h1, ?_⟩
    have h3 := roots_getD (n := files.length)
      (runPairs (groupNames files) minLen files.length) h1
    rw [show ((List.range files.length).map (groupRoot files minLen)) =
      ((List.range files.length).map
        (rootOfN files.length (runPairs (groupNames files) minLen files.length)))
      from rfl, h3]
    exact beq_iff_eq.mpr h2

theorem mem_groupBucket (files : List Str) (minLen r : Nat) (s : Str) :
    s ∈ groupBucket files minLen r ↔
      ∃ i, i < files.length ∧ groupRoot files minLen i = r ∧ files.getD i [] = s := by
  unfold groupBucket
  rw [List.mem_map]
  constructor
  · rintro ⟨i, hi, rfl⟩
    rw [mem_groupBucketIdx] at hi
    exact ⟨i, hi.1, hi.2, rfl⟩
  · rintro ⟨i, h1, h2, rfl⟩
    exact ⟨i, (mem_groupBucketIdx files minLen r i).mpr ⟨h1, h2⟩, rfl⟩

theorem mem_groupReps (files : List Str) (minLen r : Nat) :
    r ∈ groupReps files minLen ↔
      ∃ i, i < files.length ∧ groupRoot files minLen i = r := by
  unfold groupReps
  rw [foldl_addUniq_mem]
  simp only [List.not_mem_nil, false_or, List.mem_map, List.mem_range]

theorem groupReps_nodup (files : List Str) (minLen : Nat) :
    (groupReps files minLen).Nodup :=
  foldl_addUniq_nodup _ _ List.nodup_nil

theorem Group_eq (m : Matcher) (files : List Str) (h2 : ¬ files.length < 2) :
    m.Group files = ((groupReps files m.minPrefixLength).map
      (groupBucket files m.minPrefixLength)).filter (fun g => 2 ≤ g.length) := by
  have hinv := (runPairs_spec (groupNames files) m.minPrefixLength files.length).1
  have hcr := collectRoots_fst hinv
  unfold Matcher.Group
  rw [if_neg h2]
  show ((((collectRoots files.length
      (runPairs (groupNames files) m.minPrefixLength files.length)).1).foldl
      (fun acc r => if r ∈ acc then acc else acc ++ [r]) []).map
      (fun r => ((List.range files.length).filter
        (fun i => ((collectRoots files.length
          (runPairs (groupNames files) m.minPrefixLength files.length)).1).getD i 0
          == r)).map
        (fun i => files.getD i []))).filter (fun g => 2 ≤ g.length) = _
  rw [hcr]
  rfl

theorem bucket_mem_char (files : List Str) (minLen : Nat) {i : Nat}
    (hi : i < files.length) :
    ∀ s : Str, s ∈ groupBucket files minLen (groupRoot files minLen i) ↔
      ∃ j, Relation.EqvGen (RelP (groupNames files) minLen files.length) i j ∧
        files.getD j [] = s := by
  intro s
  rw [mem_groupBucket]
  constructor
  · rintro ⟨j, hj1, hj2, rfl⟩
    exact ⟨j, (groupRoot_iff files minLen i j).mp hj2.symm, rfl⟩
  · rintro ⟨j, hconn, rfl⟩
    have hjn : j < files.length := by
      rcases eqvGen_deg (fun a b h => RelP_symm h) hconn with h | h
      · rw [← h]
        exact hi
      · obtain ⟨k, hk⟩ := h.2
        exact hk.2.1
    exact ⟨j, hjn, ((groupRoot_iff files minLen i j).mpr hconn).symm, rfl⟩

theorem Group_char (m : Matcher) (files : List Str) :
    (∀ g ∈ m.Group files, ∃ i, i < files.length ∧
      (∃ j, RelP (groupNames files) m.minPrefixLength files.length i j) ∧
      (∀ s : Str, s ∈ g ↔ ∃ j, Relation.EqvGen
        (RelP (groupNames files) m.minPrefixLength files.length) i j ∧
        files.getD j [] = s)) ∧
    (∀ i, i < files.length →
      (∃ j, RelP (groupNames files) m.minPrefixLength files.length i j) →
      ∃ g ∈ m.Group files, ∀ s : Str, s ∈ g ↔ ∃ j, Relation.EqvGen
        (RelP (groupNames files) m.minPrefixLength files.length) i j ∧
        files.getD j [] = s) := by
  by_cases hsize : files.length < 2
  · constructor
    · intro g hg
      rw [show m.Group files = [] from by unfold Matcher.Group; rw [if_pos hsize]] at hg
      cases hg
    · rintro i hi ⟨j, hj⟩
      obtain ⟨hne, hi2, hj2, -⟩ := hj
      exact absurd hsize (by omega)
  · have hG := Group_eq m files hsize
    have hsymm : ∀ a b, RelP (groupNames files) m.minPrefixLength files.length a b →
        RelP (groupNames files) m.minPrefixLength files.length b a :=
      fun a b h => RelP_symm h
    constructor
    · intro g hg
      rw [hG, List.mem_filter] at hg
      obtain ⟨hgm, hglen⟩ := hg
      rw [List.mem_map] at hgm
      obtain ⟨r, hr, rfl⟩ := hgm
      have hglen2 : 2 ≤ (groupBucket files m.minPrefixLength r).length := by
        simpa using hglen
      have hblen : (groupBucket files m.minPrefixLength r).length =
          ((List.range files.length).filter
            (fun i => ((List.range files.length).map
              (groupRoot files m.minPrefixLength)).getD i 0 == r)).length := by
        unfold groupBucket
        rw [List.length_map]
      have hfl : 2 ≤ ((List.range files.length).filter
          (fun i => ((List.range files.length).map
            (groupRoot files m.minPrefixLength)).getD i 0 == r)).length := by
        rw [← hblen]
        exact hglen2
      have hnd : ((List.range files.length).filter
          (fun i => ((List.range files.length).map
            (groupRoot files m.minPrefixLength)).getD i 0 == r)).Nodup :=
        (List.nodup_range _).filter _
      obtain ⟨a, b, ha, hb, hab⟩ := exists_two_of_two_le_length hfl hnd
      rw [mem_groupBucketIdx] at ha hb
      refine ⟨a, ha.1, ?_, ?_⟩
      · have hconn : Relation.EqvGen
            (RelP (groupNames files) m.minPrefixLength files.length) a b :=
          (groupRoot_iff files m.minPrefixLength a b).mp (by rw [ha.2, hb.2])
        rcases eqvGen_deg hsymm hconn with h | h
        · exact absurd h hab
        · exact h.1
      · rw [← ha.2]
        exact bucket_mem_char files m.minPrefixLength ha.1
    · intro i hi hdeg
      obtain ⟨j, hj⟩ := hdeg
      refine ⟨groupBucket files m.minPrefixLength (groupRoot files m.minPrefixLength i),
        ?_, bucket_mem_char files m.minPrefixLength hi⟩
      rw [hG, List.mem_filter]
      constructor
      · rw [List.mem_map]
        exact ⟨groupRoot files m.minPrefixLength i,
          (mem_groupReps files m.minPrefixLength _).mpr ⟨i, hi, rfl⟩, rfl⟩
      · have hconn : Relation.EqvGen
            (RelP (groupNames files) m.minPrefixLength files.length) i j :=
          Relation.EqvGen.rel i j hj
        have hrj : groupRoot files m.minPrefixLength j =
            groupRoot files m.minPrefixLength i :=
          ((groupRoot_iff files m.minPrefixLength i j).mpr hconn).symm
        have hia : i ∈ (List.range files.length).filter
            (fun k => ((List.range files.length).map
              (groupRoot files m.minPrefixLength)).getD k 0 ==
                groupRoot files m.minPrefixLength i) :=
          (mem_groupBucketIdx files m.minPrefixLength _ i).mpr ⟨hi, rfl⟩
        have hja : j ∈ (List.range files.length).filter
            (fun k => ((List.range files.length).map
              (groupRoot files m.minPrefixLength)).getD k 0 ==
                groupRoot files m.minPrefixLength i) :=
          (mem_groupBucketIdx files m.minPrefixLength _ j).mpr ⟨hj.2.2.1, hrj⟩
        have h2 := two_le_length_of_mem_ne hia hja hj.1
        have hblen : (groupBucket files m.minPrefixLength
            (groupRoot files m.minPrefixLength i)).length =
            ((List.range files.length).filter
              (fun k => ((List.range files.length).map
                (groupRoot files m.minPrefixLength)).getD k 0 ==
                  groupRoot files m.minPrefixLength i)).length := by
          unfold groupBucket
          rw [List.length_map]
        simp only [decide_eq_true_eq]
        rw [hblen]
        exact h2

theorem filter_comm_map {α β : Type} (f : α → β) (p : β → Bool) (l : List α) :
    (l.map f).filter p = (l.filter (fun x => p (f x))).map f := by
  induction l with
  | nil => rfl
  | cons x t ih =>
    simp only [List.map_cons, List.filter_cons]
    by_cases h : p (f x)
    · simp [h, ih]
    · simp [h, ih]

theorem Group_two_le (m : Matcher) (files : List Str) :
    ∀ g ∈ m.Group files, 2 ≤ g.length := by
  intro g hg
  by_cases hsize : files.length < 2
  · rw [show m.Group files = [] from by unfold Matcher.Group; rw [if_pos hsize]] at hg
    cases hg
  · rw [Group_eq m files hsize, List.mem_filter] at hg
    simpa using hg.2

theorem Group_subset (m : Matcher) (files : List Str) :
    ∀ g ∈ m.Group files, ∀ s ∈ g, s ∈ files := by
  intro g hg s hs
  by_cases hsize : files.length < 2
  · rw [show m.Group files = [] from by unfold Matcher.Group; rw [if_pos hsize]] at hg
    cases hg
  · rw [Group_eq m files hsize, List.mem_filter, List.mem_map] at hg
    obtain ⟨⟨r, _, rfl⟩, _⟩ := hg
    rw [mem_groupBucket] at hs
    obtain ⟨i, hi, _, rfl⟩ := hs
    rw [List.getD_eq_getElem files [] hi]
    exact List.getElem_mem hi

theorem deg_of_bucket_two {files : List Str} {minLen r : Nat}
    (hlen : 2 ≤ (groupBucket files minLen r).length)
    {i : Nat} (hroot : groupRoot files minLen i = r) :
    ∃ k, RelP (groupNames files) minLen files.length i k := by
  have hblen : (groupBucket files minLen r).length =
      ((List.range files.length).filter
        (fun k => ((List.range files.length).map
          (groupRoot files minLen)).getD k 0 == r)).length := by
    unfold groupBucket
    rw [List.length_map]
  obtain ⟨a, b, ha, hb, hab⟩ := exists_two_of_two_le_length
    (by rw [← hblen]; exact hlen) ((List.nodup_range _).filter _)
  rw [mem_groupBucketIdx] at ha hb
  have hca : Relation.EqvGen (RelP (groupNames files) minLen files.length) i a :=
    (groupRoot_iff files minLen i a).mp (by rw [hroot, ha.2])
  have hcb : Relation.EqvGen (RelP (groupNames files) minLen files.length) i b :=
    (groupRoot_iff files minLen i b).mp (by rw [hroot, hb.2])
  rcases eqvGen_deg (fun x y h => RelP_symm h) hca with h | h
  · rcases eqvGen_deg (fun x y h => RelP_symm h) hcb with h2 | h2
    · exact absurd (h.symm.trans h2) hab
    · exact h2.1
  · exact h.1

theorem Group_disjoint (m : Matcher) (files : List Str) :
    ∀ k1 k2 : Nat, k1 < (m.Group files).length → k2 < (m.Group files).length →
      k1 ≠ k2 → ∀ s : Str, s ∈ (m.Group files).getD k1 [] →
        s ∉ (m.Group files).getD k2 [] := by
  intro k1 k2 hk1 hk2 hkne s hs1 hs2
  by_cases hsize : files.length < 2
  · rw [show m.Group files = [] from by unfold Matcher.Group; rw [if_pos hsize]] at hk1
    simp at hk1
  · have hG := (Group_eq m files hsize).trans
      (filter_comm_map (groupBucket files m.minPrefixLength) _
        (groupReps files m.minPrefixLength))
    have hgrnd : ((groupReps files m.minPrefixLength).filter
        (fun r => decide (2 ≤ (groupBucket files m.minPrefixLength r).length))).Nodup :=
      (groupReps_nodup files m.minPrefixLength).filter _
    rw [hG] at hk1 hk2 hs1 hs2
    rw [List.length_map] at hk1 hk2
    have hget : ∀ k, (hk : k < ((groupReps files m.minPrefixLength).filter
        (fun r => decide (2 ≤ (groupBucket files m.minPrefixLength r).length))).length) →
        (((groupReps files m.minPrefixLength).filter
          (fun r => decide (2 ≤ (groupBucket files m.minPrefixLength r).length))).map
          (groupBucket files m.minPrefixLength)).getD k [] =
        groupBucket files m.minPrefixLength
          (((groupReps files m.minPrefixLength).filter
            (fun r => decide (2 ≤ (groupBucket files m.minPrefixLength r).length))).getD
            k 0) := by
      intro k hk
      rw [List.getD_eq_getElem _ [] (by rw [List.length_map]; exact hk),
        List.getElem_map, List.getD_eq_getElem _ 0 hk]
    rw [hget k1 hk1] at hs1
    rw [hget k2 hk2] at hs2
    set gr := (groupReps files m.minPrefixLength).filter
      (fun r => decide (2 ≤ (groupBucket files m.minPrefixLength r).length)) with hgr
    have hr12 : gr.getD k1 0 ≠ gr.getD k2 0 := by
      intro heq
      rw [List.getD_eq_getElem gr 0 hk1, List.getD_eq_getElem gr 0 hk2] at heq
      exact hkne ((List.Nodup.getElem_inj_iff hgrnd).mp heq)
    have hmem1 : gr.getD k1 0 ∈ gr := by
      rw [List.getD_eq_getElem gr 0 hk1]
      exact List.getElem_mem hk1
    have hmem2 : gr.getD k2 0 ∈ gr := by
      rw [List.getD_eq_getElem gr 0 hk2]
      exact List.getElem_mem hk2
    rw [hgr, List.mem_filter] at hmem1 hmem2
    have hlen1 : 2 ≤ (groupBucket files m.minPrefixLength (gr.getD k1 0)).length := by
      simpa using hmem1.2
    rw [mem_groupBucket] at hs1 hs2
    obtain ⟨i1, hi1, hroot1, his1⟩ := hs1
    obtain ⟨i2, hi2, hroot2, his2⟩ := hs2
    have hine : i1 ≠ i2 := by
      intro h
      rw [h, hroot2] at hroot1
      exact hr12 hroot1.symm
    have hnoconn : ¬ Relation.EqvGen
        (RelP (groupNames files) m.minPrefixLength files.length) i1 i2 := by
      intro h
      have := (groupRoot_iff files m.minPrefixLength i1 i2).mpr h
      rw [hroot1, hroot2] at this
      exact hr12 this
    have hnames : groupNames files i1 = groupNames files i2 := by
      unfold groupNames
      rw [his1, his2]
    have hlt : (commonPrefix (groupNames files i1) (groupNames files i2)).length <
        m.minPrefixLength := by
      by_contra hge
      push_neg at hge
      exact hnoconn (Relation.EqvGen.rel i1 i2 ⟨hine, hi1, hi2, hge⟩)
    rw [hnames, commonPrefix_self] at hlt
    have hdeg := deg_of_bucket_two hlen1 hroot1
    obtain ⟨k, hk⟩ := hdeg
    have hge : m.minPrefixLength ≤ (groupNames files i1).length := by
      have h1 := hk.2.2.2
      have h2 := commonPrefix_length_le_left (groupNames files i1) (groupNames files k)
      omega
    have hsame : groupNames files i1 = groupNames files i2 := hnames
    rw [← hsame] at hlt
    omega

/-- C1: the partition property of the clusterer.  For every input list and
every minimum prefix length of at least 1, the groups returned by
`Matcher.Group` are pairwise disjoint as sets of path strings, every
returned group has at least two members, and every member of every group is
drawn from the input list. -/
theorem clusterer_partition :
    ∀ (files : List Str) (minLen : Nat), 1 ≤ minLen →
      (∀ k1 k2 : Nat, k1 < ((NewMatcher minLen).Group files).length →
        k2 < ((NewMatcher minLen).Group files).length → k1 ≠ k2 →
        ∀ s : Str, s ∈ ((NewMatcher minLen).Group files).getD k1 [] →
          s ∉ ((NewMatcher minLen).Group files).getD k2 []) ∧
      (∀ g ∈ (NewMatcher minLen).Group files, 2 ≤ g.length) ∧
      (∀ g ∈ (NewMatcher minLen).Group files, ∀ s ∈ g, s ∈ files) :=
  fun files minLen _ =>
    ⟨Group_disjoint (NewMatcher minLen) files,
      Group_two_le (NewMatcher minLen) files,
      Group_subset (NewMatcher minLen) files⟩

/-- Witness for the C1 theorem at a concrete input: the spec's end-to-end
clustering example with minimum prefix length 3. -/
theorem clusterer_partition_witness :
    (∀ k1 k2 : Nat, k1 < (((NewMatcher 3).Group
        [strL "document.txt", strL "document-1.txt", strL "document_copy.txt",
          strL "image.png", strL "image-1.png", strL "unrelated.txt"]).length) →
      k2 < (((NewMatcher 3).Group
        [strL "document.txt", strL "document-1.txt", strL "document_copy.txt",
          strL "image.png", strL "image-1.png", strL "unrelated.txt"]).length) →
      k1 ≠ k2 → ∀ s : Str,
        s ∈ ((NewMatcher 3).Group
          [strL "document.txt", strL "document-1.txt", strL "document_copy.txt",
            strL "image.png", strL "image-1.png", strL "unrelated.txt"]).getD k1 [] →
        s ∉ ((NewMatcher 3).Group
          [strL "document.txt", strL "document-1.txt", strL "document_copy.txt",
            strL "image.png", strL "image-1.png", strL "unrelated.txt"]).getD k2 []) ∧
    (∀ g ∈ (NewMatcher 3).Group
        [strL "document.txt", strL "document-1.txt", strL "document_copy.txt",
          strL "image.png", strL "image-1.png", strL "unrelated.txt"], 2 ≤ g.length) ∧
    (∀ g ∈ (NewMatcher 3).Group
        [strL "document.txt", strL "document-1.txt", strL "document_copy.txt",
          strL "image.png", strL "image-1.png", strL "unrelated.txt"],
      ∀ s ∈ g, s ∈ [strL "document.txt", strL "document-1.txt", strL "document_copy.txt",
        strL "image.png", strL "image-1.png", strL "unrelated.txt"]) :=
  clusterer_partition
    [strL "document.txt", strL "document-1.txt", strL "document_copy.txt",
      strL "image.png", strL "image-1.png", strL "unrelated.txt"] 3 (by decide)

/-- C10: after any prefix of the merges performed by the pair loop of
`Matcher.Group`, the parent map of the union-find satisfies the forest
invariant: parent pointers from any index reach a fixed point (the parent
graph is acyclic apart from root self-loops).  Consequently the recursive
`findRoot` terminates: any fuel of at least `n` gives the same result as
fuel `n`, so the fuel in the embedding is never exhausted and the Go
recursion, which carries no fuel, always terminates. -/
theorem unionfind_acyclic_terminates :
    ∀ (files : List Str) (minLen k : Nat),
      let f := ((pairsList files.length).take k).foldl
        (fun g ij => mergeStep (groupNames files) minLen files.length g ij) id
      UFInv files.length f ∧
      (∀ x, ufReaches f x) ∧
      (∀ x fuel, files.length ≤ fuel →
        findRootF fuel f x = findRootF files.length f x) := by
  intro files minLen k
  have hwf : ∀ p ∈ (pairsList files.length).take k,
      p.1 < files.length ∧ p.2 < files.length := by
    intro p hp
    have hp2 := List.mem_of_mem_take hp
    rw [mem_pairsList] at hp2
    omega
  have hinv := (foldl_mergeStep_roots (groupNames files) minLen
    ((pairsList files.length).take k) id (UFInv_id files.length) hwf).1
  exact ⟨hinv, hinv.2.2, fun x fuel hfuel => findRootF_fuel_ge hinv x fuel hfuel⟩

/-- Witness for the C10 theorem at a concrete input: two files, one
processed pair, surplus fuel. -/
theorem unionfind_acyclic_terminates_witness :
    findRootF 5 (((pairsList ([strL "ab.txt", strL "ac.txt"] : List Str).length).take
        1).foldl
      (fun g ij => mergeStep (groupNames [strL "ab.txt", strL "ac.txt"]) 1
        ([strL "ab.txt", strL "ac.txt"] : List Str).length g ij) id) 1 =
    findRootF ([strL "ab.txt", strL "ac.txt"] : List Str).length
      (((pairsList ([strL "ab.txt", strL "ac.txt"] : List Str).length).take 1).foldl
      (fun g ij => mergeStep (groupNames [strL "ab.txt", strL "ac.txt"]) 1
        ([strL "ab.txt", strL "ac.txt"] : List Str).length g ij) id) 1 :=
  (unionfind_acyclic_terminates [strL "ab.txt", strL "ac.txt"] 1 1).2.2 1 5 (by decide)

theorem mem_iff_getD {α : Type} (l : List α) (d : α) (s : α) :
    s ∈ l ↔ ∃ i, i < l.length ∧ l.getD i d = s := by
  rw [List.mem_iff_getElem]
  constructor
  · rintro ⟨i, hi, rfl⟩
    exact ⟨i, hi, List.getD_eq_getElem l d hi⟩
  · rintro ⟨i, hi, hg⟩
    refine ⟨i, hi, ?_⟩
    rw [← List.getD_eq_getElem l d hi]
    exact hg

theorem getD_mem_of_lt {α : Type} (l : List α) (d : α) {i : Nat} (hi : i < l.length) :
    l.getD i d ∈ l := by
  rw [List.getD_eq_getElem l d hi]
  exact List.getElem_mem hi

theorem getD_append_left {α : Type} (l1 l2 : List α) (d : α) {i : Nat}
    (hi : i < l1.length) : (l1 ++ l2).getD i d = l1.getD i d := by
  rw [List.getD_eq_getElem _ d (by rw [List.length_append]; omega),
    List.getD_eq_getElem _ d hi]
  exact List.getElem_append_left hi

theorem getD_append_right {α : Type} (l1 l2 : List α) (d : α) {i : Nat}
    (hi : i < l2.length) : (l1 ++ l2).getD (l1.length + i) d = l2.getD i d := by
  rw [List.getD_eq_getElem _ d (by rw [List.length_append]; omega),
    List.getD_eq_getElem _ d hi]
  rw [List.getElem_append_right (by omega)]
  congr 1
  omega

theorem join_mem_char (m : Matcher) (files : List Str) (s : Str) :
    s ∈ (m.Group files).flatten ↔
      ∃ i, i < files.length ∧ files.getD i [] = s ∧
        ∃ j, RelP (groupNames files) m.minPrefixLength files.length i j := by
  rw [List.mem_flatten]
  constructor
  · rintro ⟨g, hg, hs⟩
    obtain ⟨a, han, hdega, hcharA⟩ := (Group_char m files).1 g hg
    obtain ⟨j, hconn, hjs⟩ := (hcharA s).mp hs
    rcases eqvGen_deg (fun x y h => RelP_symm h) hconn with h | h
    · refine ⟨j, ?_, hjs, ?_⟩
      · rw [← h]
        exact han
      · rw [← h]
        exact hdega
    · obtain ⟨k, hk⟩ := h.2
      exact ⟨j, hk.2.1, hjs, ⟨k, hk⟩⟩
  · rintro ⟨i, hin, his, hdeg⟩
    obtain ⟨g, hg, hcharI⟩ := (Group_char m files).2 i hin hdeg
    exact ⟨g, hg, (hcharI s).mpr ⟨i, Relation.EqvGen.refl i, his⟩⟩

theorem join_base_length (m : Matcher) (files : List Str) (s : Str)
    (hs : s ∈ (m.Group files).flatten) :
    m.minPrefixLength ≤ (filepathBase s).length := by
  rw [join_mem_char] at hs
  obtain ⟨i, hin, his, j, hj⟩ := hs
  have h1 := hj.2.2.2
  have h2 := commonPrefix_length_le_left (groupNames files i) (groupNames files j)
  have h3 : groupNames files i = filepathBase s := by
    unfold groupNames
    rw [his]
  rw [h3] at h1 h2
  omega

theorem doubled_getD_mem_join (m : Matcher) (files : List Str) {k : Nat}
    (hk : k < (doubledOutput m files).length) :
    (doubledOutput m files).getD k [] ∈ (m.Group files).flatten := by
  have hmem := getD_mem_of_lt (doubledOutput m files) [] hk
  unfold doubledOutput at hmem
  rcases List.mem_append.mp hmem with h | h
  · exact h
  · exact h

theorem dup_partner (m : Matcher) (files : List Str) {k : Nat}
    (hk : k < (doubledOutput m files).length) :
    ∃ t, RelP (groupNames (doubledOutput m files)) m.minPrefixLength
      (doubledOutput m files).length k t := by
  have hsF : (doubledOutput m files).getD k [] ∈ (m.Group files).flatten :=
    doubled_getD_mem_join m files hk
  obtain ⟨p, hp, hps⟩ := (mem_iff_getD ((m.Group files).flatten) [] _).mp hsF
  have hq1 : (doubledOutput m files).getD p [] = (doubledOutput m files).getD k [] := by
    unfold doubledOutput
    rw [getD_append_left _ _ [] hp]
    exact hps
  have hq2 : (doubledOutput m files).getD ((m.Group files).flatten.length + p) [] =
      (doubledOutput m files).getD k [] := by
    unfold doubledOutput
    rw [getD_append_right _ _ [] hp]
    exact hps
  have hlen2 : (doubledOutput m files).length =
      (m.Group files).flatten.length + (m.Group files).flatten.length := by
    unfold doubledOutput
    rw [List.length_append]
  have hbase := join_base_length m files _ hsF
  have hpre : ∀ t, (doubledOutput m files).getD t [] = (doubledOutput m files).getD k [] →
      m.minPrefixLength ≤ (commonPrefix (groupNames (doubledOutput m files) k)
        (groupNames (doubledOutput m files) t)).length := by
    intro t hts
    have hnames : groupNames (doubledOutput m files) k =
        groupNames (doubledOutput m files) t := by
      unfold groupNames
      rw [hts]
    rw [← hnames, commonPrefix_self]
    exact hbase
  by_cases hkp : k = p
  · refine ⟨(m.Group files).flatten.length + p, ⟨by omega, by omega, by omega, ?_⟩⟩
    exact hpre _ hq2
  · refine ⟨p, ⟨hkp, by omega, by omega, ?_⟩⟩
    exact hpre _ hq1

theorem dup_conn (m : Matcher) (files : List Str) {k l : Nat}
    (hk : k < (doubledOutput m files).length)
    (hl : l < (doubledOutput m files).length)
    (heq : (doubledOutput m files).getD k [] = (doubledOutput m files).getD l []) :
    Relation.EqvGen (RelP (groupNames (doubledOutput m files)) m.minPrefixLength
      (doubledOutput m files).length) k l := by
  by_cases hkl : k = l
  · rw [hkl]
    exact Relation.EqvGen.refl l
  · refine Relation.EqvGen.rel k l ⟨hkl, hk, hl, ?_⟩
    have hbase := join_base_length m files _ (doubled_getD_mem_join m files hk)
    have hnames : groupNames (doubledOutput m files) k =
        groupNames (doubledOutput m files) l := by
      unfold groupNames
      rw [heq]
    rw [← hnames, commonPrefix_self]
    exact hbase

theorem conn_transfer_fwd (m : Matcher) (files : List Str) {i j : Nat}
    (hconn : Relation.EqvGen
      (RelP (groupNames files) m.minPrefixLength files.length) i j) :
    ∀ k l : Nat,
      k < (doubledOutput m files).length →
      l < (doubledOutput m files).length →
      (doubledOutput m files).getD k [] = files.getD i [] →
      (doubledOutput m files).getD l [] = files.getD j [] →
      Relation.EqvGen (RelP (groupNames (doubledOutput m files)) m.minPrefixLength
        (doubledOutput m files).length) k l := by
  induction hconn with
  | rel a b hab =>
    intro k l hk hl hsk hsl
    by_cases hkl : k = l
    · rw [hkl]
      exact Relation.EqvGen.refl l
    · refine Relation.EqvGen.rel k l ⟨hkl, hk, hl, ?_⟩
      have h1 : groupNames (doubledOutput m files) k = groupNames files a := by
        unfold groupNames
        rw [hsk]
      have h2 : groupNames (doubledOutput m files) l = groupNames files b := by
        unfold groupNames
        rw [hsl]
      rw [h1, h2]
      exact hab.2.2.2
  | refl a =>
    intro k l hk hl hsk hsl
    exact dup_conn m files hk hl (by rw [hsk, hsl])
  | symm a b _ ih =>
    intro k l hk hl hsk hsl
    exact Relation.EqvGen.symm l k (ih l k hl hk hsl hsk)
  | trans a b c hab _ ih1 ih2 =>
    intro k l hk hl hsk hsl
    rcases eqvGen_deg (fun x y h => RelP_symm h) hab with h | h
    · exact ih2 k l hk hl (by rw [hsk, h]) hsl
    · obtain ⟨t, ht⟩ := h.2
      have hbn : b < files.length := ht.2.1
      have hbF : files.getD b [] ∈ (m.Group files).flatten :=
        (join_mem_char m files _).mpr ⟨b, hbn, rfl, ⟨t, ht⟩⟩
      have hbF2 : files.getD b [] ∈ doubledOutput m files := by
        unfold doubledOutput
        exact List.mem_append.mpr (Or.inl hbF)
      obtain ⟨kb, hkb, hkbs⟩ := (mem_iff_getD (doubledOutput m files) [] _).mp hbF2
      exact Relation.EqvGen.trans k kb l
        (ih1 k kb hk hkb hsk hkbs)
        (ih2 kb l hkb hl hkbs hsl)

theorem conn_transfer_bwd (m : Matcher) (files : List Str) {k l : Nat}
    (hconn : Relation.EqvGen (RelP (groupNames (doubledOutput m files))
      m.minPrefixLength (doubledOutput m files).length) k l) :
    ∀ i j : Nat, i < files.length → j < files.length →
      k < (doubledOutput m files).length →
      l < (doubledOutput m files).length →
      files.getD i [] = (doubledOutput m files).getD k [] →
      files.getD j [] = (doubledOutput m files).getD l [] →
      Relation.EqvGen (RelP (groupNames files) m.minPrefixLength files.length) i j := by
  induction hconn with
  | rel a b hab =>
    intro i j hi hj hk hl hsi hsj
    by_cases hij : i = j
    · rw [hij]
      exact Relation.EqvGen.refl j
    · refine Relation.EqvGen.rel i j ⟨hij, hi, hj, ?_⟩
      have h1 : groupNames files i = groupNames (doubledOutput m files) a := by
        unfold groupNames
        rw [hsi]
      have h2 : groupNames files j = groupNames (doubledOutput m files) b := by
        unfold groupNames
        rw [hsj]
      rw [h1, h2]
      exact hab.2.2.2
  | refl a =>
    intro i j hi hj hk hl hsi hsj
    by_cases hij : i = j
    · rw [hij]
      exact Relation.EqvGen.refl j
    · refine Relation.EqvGen.rel i j ⟨hij, hi, hj, ?_⟩
      have hbase := join_base_length m files _ (doubled_getD_mem_join m files hk)
      have hnames : groupNames files i = groupNames files j := by
        unfold groupNames
        rw [hsi, hsj]
      rw [← hnames, commonPrefix_self]
      have h2 : groupNames files i =
          filepathBase ((doubledOutput m files).getD a []) := by
        unfold groupNames
        rw [hsi]
      rw [h2]
      exact hbase
  | symm a b _ ih =>
    intro i j hi hj hk hl hsi hsj
    exact Relation.EqvGen.symm j i (ih j i hj hi hl hk hsj hsi)
  | trans a b c hab _ ih1 ih2 =>
    intro i j hi hj hk hl hsi hsj
    rcases eqvGen_deg (fun x y h => RelP_symm h) hab with h | h
    · refine ih2 i j hi hj ?_ hl (by rw [hsi, h]) hsj
      rw [← h]
      exact hk
    · obtain ⟨t, ht⟩ := h.2
      have hbn2 : b < (doubledOutput m files).length := ht.2.1
      have hbF : (doubledOutput m files).getD b [] ∈ (m.Group files).flatten :=
        doubled_getD_mem_join m files hbn2
      obtain ⟨ib, hibn, hibs, _⟩ := (join_mem_char m files _).mp hbF
      exact Relation.EqvGen.trans i ib j
        (ih1 i ib hi hibn hk hbn2 hsi hibs)
        (ih2 ib j hibn hj hbn2 hl hibs hsj)

theorem mem_char_transfer (m : Matcher) (files : List Str) {a k : Nat}
    (han : a < files.length)
    (hkn : k < (doubledOutput m files).length)
    (hks : (doubledOutput m files).getD k [] = files.getD a []) :
    ∀ s : Str,
      (∃ j, Relation.EqvGen
        (RelP (groupNames files) m.minPrefixLength files.length) a j ∧
        files.getD j [] = s) ↔
      (∃ l2, Relation.EqvGen (RelP (groupNames (doubledOutput m files))
        m.minPrefixLength (doubledOutput m files).length) k l2 ∧
        (doubledOutput m files).getD l2 [] = s) := by
  intro s
  constructor
  · rintro ⟨j, hconn, hjs⟩
    have hjn_deg : j < files.length ∧
        (j = a ∨ ∃ t, RelP (groupNames files) m.minPrefixLength files.length j t) := by
      rcases eqvGen_deg (fun x y h => RelP_symm h) hconn with h | h
      · refine ⟨?_, Or.inl h.symm⟩
        rw [← h]
        exact han
      · obtain ⟨t, ht⟩ := h.2
        exact ⟨ht.2.1, Or.inr ⟨t, ht⟩⟩
    have hjF : files.getD j [] ∈ (m.Group files).flatten := by
      rcases hjn_deg.2 with h | h
      · rw [h, ← hks]
        exact doubled_getD_mem_join m files hkn
      · exact (join_mem_char m files _).mpr ⟨j, hjn_deg.1, rfl, h⟩
    have hjF2 : files.getD j [] ∈ doubledOutput m files := by
      unfold doubledOutput
      exact List.mem_append.mpr (Or.inl hjF)
    obtain ⟨l2, hl2n, hl2s⟩ := (mem_iff_getD (doubledOutput m files) [] _).mp hjF2
    refine ⟨l2, conn_transfer_fwd m files hconn k l2 hkn hl2n hks hl2s, ?_⟩
    rw [hl2s, hjs]
  · rintro ⟨l2, hconn2, hl2s⟩
    have hl2n : l2 < (doubledOutput m files).length := by
      rcases eqvGen_deg (fun x y h => RelP_symm h) hconn2 with h | h
      · rw [← h]
        exact hkn
      · obtain ⟨t, ht⟩ := h.2
        exact ht.2.1
    have hlF : (doubledOutput m files).getD l2 [] ∈ (m.Group files).flatten :=
      doubled_getD_mem_join m files hl2n
    obtain ⟨j, hjn, hjs2, _⟩ := (join_mem_char m files _).mp hlF
    refine ⟨j, conn_transfer_bwd m files hconn2 a j han hjn hkn hl2n hks.symm hjs2, ?_⟩
    rw [hjs2, hl2s]

/-- C9: idempotence of the clusterer.  Re-running `Matcher.Group`, with the
same minimum prefix length, on the flattened output of a previous run
concatenated with itself yields the same partition structure as sets of
path strings: every original group reappears with exactly the same member
strings, and every group of the re-run is one of the original groups.  No
group splits, no two groups merge, and no file changes group. -/
theorem clusterer_idempotent :
    ∀ (files : List Str) (minLen : Nat),
      (∀ g ∈ (NewMatcher minLen).Group files,
        ∃ h ∈ (NewMatcher minLen).Group (doubledOutput (NewMatcher minLen) files),
          ∀ s : Str, (s ∈ g ↔ s ∈ h)) ∧
      (∀ h ∈ (NewMatcher minLen).Group (doubledOutput (NewMatcher minLen) files),
        ∃ g ∈ (NewMatcher minLen).Group files, ∀ s : Str, (s ∈ g ↔ s ∈ h)) := by
  intro files minLen
  constructor
  · intro g hg
    obtain ⟨a, han, hdega, hcharA⟩ := (Group_char (NewMatcher minLen) files).1 g hg
    have haF : files.getD a [] ∈ ((NewMatcher minLen).Group files).flatten :=
      (join_mem_char (NewMatcher minLen) files _).mpr ⟨a, han, rfl, hdega⟩
    have haF2 : files.getD a [] ∈ doubledOutput (NewMatcher minLen) files := by
      unfold doubledOutput
      exact List.mem_append.mpr (Or.inl haF)
    obtain ⟨k, hkn, hks⟩ :=
      (mem_iff_getD (doubledOutput (NewMatcher minLen) files) [] _).mp haF2
    obtain ⟨h2, hh2, hcharK⟩ := (Group_char (NewMatcher minLen)
      (doubledOutput (NewMatcher minLen) files)).2 k hkn
      (dup_partner (NewMatcher minLen) files hkn)
    refine ⟨h2, hh2, fun s => ?_⟩
    rw [hcharA s, hcharK s]
    exact mem_char_transfer (NewMatcher minLen) files han hkn hks s
  · intro h2 hh2
    obtain ⟨k, hkn, _, hcharK⟩ := (Group_char (NewMatcher minLen)
      (doubledOutput (NewMatcher minLen) files)).1 h2 hh2
    have hkF : (doubledOutput (NewMatcher minLen) files).getD k [] ∈
        ((NewMatcher minLen).Group files).flatten :=
      doubled_getD_mem_join (NewMatcher minLen) files hkn
    obtain ⟨a, han, has, hdega⟩ := (join_mem_char (NewMatcher minLen) files _).mp hkF
    obtain ⟨g, hg, hcharA⟩ := (Group_char (NewMatcher minLen) files).2 a han hdega
    refine ⟨g, hg, fun s => ?_⟩
    rw [hcharA s, hcharK s]
    exact mem_char_transfer (NewMatcher minLen) files han hkn has.symm s

/-- Witness for the C9 theorem at a concrete input. -/
theorem clusterer_idempotent_witness :
    ∃ h ∈ (NewMatcher 3).Group
      (doubledOutput (NewMatcher 3) [strL "document.txt", strL "document-1.txt"]),
      ∀ s : Str, (s ∈ ([strL "document.txt", strL "document-1.txt"] : List Str) ↔ s ∈ h) :=
  (clusterer_idempotent [strL "document.txt", strL "document-1.txt"] 3).1
    [strL "document.txt", strL "document-1.txt"] (by decide)
